import Mathlib

/-!
Verification development for the mc-aixi repository: a shallow embedding of
the bit codec, random-number helpers, the context-tree-weighting (CTW)
predictor, the agent shell and the rho-UCT search nodes, together with
theorems settling the specification claims.  C++ `double` values are
modelled as real numbers; machine integers are modelled as `Nat`/`Int`.
-/

set_option maxHeartbeats 1000000
set_option linter.unusedVariables false
set_option linter.unnecessarySeqFocus false

namespace MCAIXI

/-! ## Bit codec and random helpers (util.cpp) -/

/-- `util.cpp` `encode`: appends `bits` symbols onto the end of `symbols`,
least-significant bit first (each step pushes `value % 2 == 1` and then
divides `value` by two). -/
def encode (symbols : List Bool) (value : ℕ) : ℕ → List Bool
  | 0 => symbols
  | bits + 1 => encode (symbols ++ [value % 2 == 1]) (value / 2) bits

/-- `util.cpp` `decode`: reads the last `bits` symbols of the list via reverse
iteration, accumulating `value = (*it ? 1 : 0) + 2 * value`, so the most
recently appended symbol becomes the most significant bit. -/
def decode (symbols : List Bool) (bits : ℕ) : ℕ :=
  ((symbols.reverse.take bits).foldl (fun value s => (if s then 1 else 0) + 2 * value) 0)

/-- The block of symbols that one call to `encode` appends (proof helper:
`encode symbols v b = symbols ++ encodeBits v b`). -/
def encodeBits (value : ℕ) : ℕ → List Bool
  | 0 => []
  | bits + 1 => (value % 2 == 1) :: encodeBits (value / 2) bits

/-- `util.cpp` `RAND_MAX` of the platform (the glibc value; `rand()` returns
an integer between `0` and `RAND_MAX` inclusive). -/
def RAND_MAX : ℕ := 2147483647

/-- `util.cpp` `rand01`: `double(rand()) / double(RAND_MAX)` where `r` is the
outcome of `rand()`, an integer in `[0, RAND_MAX]`. -/
noncomputable def rand01 (r : ℕ) : ℝ := (r : ℝ) / (RAND_MAX : ℝ)

/-- `util.cpp` `randRange(end)`: a uniform integer in `[0, end)` obtained by
rejection sampling; modelled as the raw draw `r` reduced modulo `bound`
(the implementation guarantees membership in `[0, bound)`). -/
def randRange (r : ℕ) (bound : ℕ) : ℕ := r % bound

/-! ## Pac-Man ghost sniff counter (pacman.cpp) -/

/-- `pacman.cpp` `PacMan::findPacman`, restricted to its effect on the sniff
counter and its return value: `dist` is the manhattan distance between the
ghost and the player.  If the counter is positive the ghost already knows
where the player is; otherwise a detection within distance 5 sets the
counter to 5. -/
def findPacman (dist : ℤ) (sniff : ℤ) : Bool × ℤ :=
  if 0 < sniff then (true, sniff)
  else if dist ≤ 5 then (true, 5)
  else (false, sniff)

/-- `pacman.cpp` `PacMan::moveGhostAndUpdateReward`, restricted to its effect
on the sniff counter.  Both branches execute the statement `*sniff--;`,
which post-decrements the POINTER `sniff` and discards the dereferenced
value, so the pointed-to counter is never decremented; the only write to
the counter is the one performed inside `findPacman`. -/
def moveGhostSniff (dist : ℤ) (sniff : ℤ) : ℤ :=
  (findPacman dist sniff).2

/-! ## Context tree (predict.hpp / predict.cpp)

`CTNode` carries the cached log KT estimate, the cached weighted log
probability, the two symbol counts (C++ `int`, modelled as `ℤ`) and the two
optional children.  The tree operations are faithful functional translations
of the in-place C++ updates: the update and revert loops run from the leaf of
the context path back to the root, so each node recomputes its weighted
probability after its child on the path has been rewritten. -/

inductive CTNode : Type where
  | mk (log_kt : ℝ) (log_probability : ℝ) (count0 : ℤ) (count1 : ℤ)
      (child0 : Option CTNode) (child1 : Option CTNode) : CTNode

/-- `CTNode::m_log_kt`. -/
def CTNode.log_kt : CTNode → ℝ
  | .mk x _ _ _ _ _ => x

/-- `CTNode::m_log_probability`. -/
def CTNode.log_probability : CTNode → ℝ
  | .mk _ x _ _ _ _ => x

/-- `CTNode::m_count[symbol]`. -/
def CTNode.count : CTNode → Bool → ℤ
  | .mk _ _ c0 _ _ _, false => c0
  | .mk _ _ _ c1 _ _, true => c1

/-- `CTNode::m_child[symbol]`. -/
def CTNode.child : CTNode → Bool → Option CTNode
  | .mk _ _ _ _ d0 _, false => d0
  | .mk _ _ _ _ _ d1, true => d1

/-- Field assignment `m_log_kt = x`. -/
def CTNode.withLogKt : CTNode → ℝ → CTNode
  | .mk _ p c0 c1 d0 d1, x => .mk x p c0 c1 d0 d1

/-- Field assignment `m_log_probability = x`. -/
def CTNode.withLogProbability : CTNode → ℝ → CTNode
  | .mk k _ c0 c1 d0 d1, x => .mk k x c0 c1 d0 d1

/-- Field assignment `m_count[symbol] = v`. -/
def CTNode.withCount : CTNode → Bool → ℤ → CTNode
  | .mk k p _ c1 d0 d1, false, v => .mk k p v c1 d0 d1
  | .mk k p c0 _ d0 d1, true, v => .mk k p c0 v d0 d1

/-- Field assignment `m_child[symbol] = c`. -/
def CTNode.withChild : CTNode → Bool → Option CTNode → CTNode
  | .mk k p c0 c1 _ d1, false, d => .mk k p c0 c1 d d1
  | .mk k p c0 c1 d0 _, true, d => .mk k p c0 c1 d0 d

/-- `CTNode::visits()`: the sum of the two symbol counts. -/
def CTNode.visits (n : CTNode) : ℤ := n.count false + n.count true

/-- `CTNode::isLeafNode()`: both children absent. -/
def CTNode.isLeafNode (n : CTNode) : Bool :=
  (n.child false).isNone && (n.child true).isNone

/-- `CTNode::size()`: the number of nodes in the subtree. -/
def CTNode.size : CTNode → ℕ
  | .mk _ _ _ _ d0 d1 =>
    1 + (match d0 with | none => 0 | some c => c.size)
      + (match d1 with | none => 0 | some c => c.size)

/-- `CTNode::CTNode()`: zero log estimates, zero counts, no children. -/
def CTNode.init : CTNode := .mk 0 0 0 0 none none

/-- The value `ln(0.5)` (the constant `log_half` in predict.cpp). -/
noncomputable def log_half : ℝ := Real.log 0.5

/-- `CTNode::logKTMultiplier(symbol)`:
`log((count[symbol] + 0.5) / (visits + 1))`. -/
noncomputable def CTNode.logKTMultiplier (n : CTNode) (symbol : Bool) : ℝ :=
  Real.log (((n.count symbol : ℝ) + 0.5) / ((n.visits : ℝ) + 1))

/-- Contribution of an optional child to the log child probability:
`child(b) ? child(b)->logProbability() : 0.0`. -/
def childLogProb : Option CTNode → ℝ
  | none => 0
  | some c => c.log_probability

/-- The value that `CTNode::updateLogProbability()` computes and stores: the
KT estimate at a leaf, otherwise
`log_half + a + log(1 + exp(b - a))` with `a`/`b` the max/min of the log KT
estimate and the summed log probabilities of the children. -/
noncomputable def CTNode.lpFormula (n : CTNode) : ℝ :=
  if n.isLeafNode then n.log_kt
  else
    let log_child_prob := childLogProb (n.child false) + childLogProb (n.child true)
    let a := max n.log_kt log_child_prob
    let b := min n.log_kt log_child_prob
    log_half + a + Real.log (1 + Real.exp (b - a))

/-- `CTNode::updateLogProbability()`. -/
noncomputable def CTNode.updateLogProbability (n : CTNode) : CTNode :=
  n.withLogProbability n.lpFormula

/-- `CTNode::update(symbol)`: add the KT multiplier to the log KT estimate,
recompute the weighted probability, then increment the symbol count. -/
noncomputable def CTNode.update (n : CTNode) (symbol : Bool) : CTNode :=
  let n1 := n.withLogKt (n.log_kt + n.logKTMultiplier symbol)
  let n2 := n1.updateLogProbability
  n2.withCount symbol (n2.count symbol + 1)

/-- The guard `m_child[symbol] && m_child[symbol]->visits() == 0` of
`CTNode::revert`. -/
def optVisitsZero : Option CTNode → Bool
  | none => false
  | some c => c.visits == 0

/-- `CTNode::revert(symbol)`: decrement the symbol count, delete the child on
the reverted-symbol side if it has zero visits, subtract the KT multiplier
(computed with the decremented counts), then recompute the weighted
probability. -/
noncomputable def CTNode.revert (n : CTNode) (symbol : Bool) : CTNode :=
  let n1 := n.withCount symbol (n.count symbol - 1)
  let n2 := if optVisitsZero (n1.child symbol) then n1.withChild symbol none else n1
  let n3 := n2.withLogKt (n2.log_kt - n2.logKTMultiplier symbol)
  n3.updateLogProbability

/-- The walk performed by `ContextTree::update(symbol)` on the nodes:
`updateContext` builds the context path along the most recent `depth`
history bits (creating missing nodes), and the update loop runs
`i = depth, ..., 0`, i.e. from the leaf of the path back to the root. -/
noncomputable def CTNode.updateAt : CTNode → List Bool → Bool → CTNode
  | n, [], symbol => n.update symbol
  | n, h :: rest, symbol =>
    let c := ((n.child h).getD CTNode.init).updateAt rest symbol
    (n.withChild h (some c)).update symbol

/-- The walk performed by `ContextTree::revert()` on the nodes: the context
path is rebuilt on the popped history (`updateContext`, creating missing
nodes), and the revert loop runs from the leaf of the path back to the
root. -/
noncomputable def CTNode.revertAt : CTNode → List Bool → Bool → CTNode
  | n, [], symbol => n.revert symbol
  | n, h :: rest, symbol =>
    let c := ((n.child h).getD CTNode.init).revertAt rest symbol
    (n.withChild h (some c)).revert symbol

/-- `ContextTree` (predict.hpp): root node, maximum depth and history.  The
history list keeps the MOST RECENT symbol at its head (`push_back` = cons),
so the reverse iteration of `updateContext` is `List.take` from the head.
The transient `m_context` path array is not part of the state (it is valid
only immediately after `updateContext` and is rebuilt on demand). -/
structure ContextTree where
  root : CTNode
  depth : ℕ
  history : List Bool

/-- `ContextTree::historySize()`. -/
def ContextTree.historySize (t : ContextTree) : ℕ := t.history.length

/-- `ContextTree::size()`. -/
def ContextTree.size (t : ContextTree) : ℕ := t.root.size

/-- `ContextTree::logBlockProbability()`: the root log weighted probability. -/
noncomputable def ContextTree.logBlockProbability (t : ContextTree) : ℝ :=
  t.root.log_probability

/-- `ContextTree::update(symbol)`: if the history holds at least `depth`
symbols, update the nodes along the context path; then append the symbol to
the history. -/
noncomputable def ContextTree.update (t : ContextTree) (symbol : Bool) : ContextTree :=
  if t.depth ≤ t.history.length then
    { t with root := t.root.updateAt (t.history.take t.depth) symbol,
             history := symbol :: t.history }
  else { t with history := symbol :: t.history }

/-- `ContextTree::update(symbol_list)`: one update per symbol, in order. -/
noncomputable def ContextTree.updateList (t : ContextTree) (symbols : List Bool) : ContextTree :=
  symbols.foldl ContextTree.update t

/-- `ContextTree::updateHistory(symbol)`: append to the history only. -/
def ContextTree.updateHistory (t : ContextTree) (symbol : Bool) : ContextTree :=
  { t with history := symbol :: t.history }

/-- `ContextTree::updateHistory(symbol_list)`: append each symbol in order. -/
def ContextTree.updateHistoryList (t : ContextTree) (symbols : List Bool) : ContextTree :=
  symbols.foldl ContextTree.updateHistory t

/-- `ContextTree::revert()`: return unchanged if the history is empty;
otherwise pop the most recent symbol and, if at least `depth` symbols
remain, revert the nodes along the context path of the popped history. -/
noncomputable def ContextTree.revert (t : ContextTree) : ContextTree :=
  match t.history with
  | [] => t
  | symbol :: rest =>
    if t.depth ≤ rest.length then
      { t with root := t.root.revertAt (rest.take t.depth) symbol, history := rest }
    else { t with history := rest }

/-- `ContextTree::revert(num_symbols)`: revert one symbol at a time. -/
noncomputable def ContextTree.revertN (t : ContextTree) : ℕ → ContextTree
  | 0 => t
  | n + 1 => t.revert.revertN n

/-- `ContextTree::revertHistory(num_symbols)`: shrink the history without
touching the tree. -/
def ContextTree.revertHistory (t : ContextTree) (num : ℕ) : ContextTree :=
  { t with history := t.history.drop num }

/-- `ContextTree::predict(symbol)`: `0.5` when there is insufficient context;
otherwise `exp(ln p(hs) - ln p(h))`, where the tree is updated with the
symbol, read, and reverted (the revert restores the state, so the returned
value is a function of the pre-call tree). -/
noncomputable def ContextTree.predict (t : ContextTree) (symbol : Bool) : ℝ :=
  if t.history.length < t.depth then 0.5
  else Real.exp ((t.update symbol).logBlockProbability - t.logBlockProbability)

/-- `ContextTree::ContextTree(depth)`: a fresh root and an empty history. -/
def ContextTree.init (depth : ℕ) : ContextTree := ⟨CTNode.init, depth, []⟩

/-! ## Context-tree invariants

The states the program actually builds (starting from a fresh tree, with
updates and reverts always paired in stack order) satisfy structural
invariants that the specification claims implicitly assume.  `CTNode.Inv`
captures the count structure, `CTNode.WFlp` the consistency of the cached
weighted probabilities, and `CTNode.cval` reads the observable count and
log-KT data along a path, treating a missing subtree as all zeros. -/

/-- Visit count of an optional child (a missing child reads as zero). -/
def optVisits : Option CTNode → ℤ
  | none => 0
  | some c => c.visits

/-- The pair of counts and the log KT estimate found by walking the subtree
along a path of symbols; a missing subtree reads as a fresh node. -/
def CTNode.cval : CTNode → List Bool → ℤ × ℤ × ℝ
  | n, [] => (n.count false, n.count true, n.log_kt)
  | n, b :: p =>
    match n.child b with
    | none => (0, 0, 0)
    | some c => c.cval p

/-- Closed form of the log KT block estimate after `a` zeros and `b` ones:
`sum log(i + 1/2)` over both counts minus `log((a + b)!)`. -/
noncomputable def ktLog (a b : ℕ) : ℝ :=
  (∑ i ∈ Finset.range a, Real.log ((i : ℝ) + 0.5))
    + (∑ i ∈ Finset.range b, Real.log ((i : ℝ) + 0.5))
    - ∑ i ∈ Finset.range (a + b), Real.log ((i : ℝ) + 1)

/-- Structural invariant of reachable context-tree nodes, indexed by the
remaining depth `k`: counts are nonnegative, the log KT estimate is the
closed-form KT value of the counts, nodes at the end of the context path
(`k = 0`) are childless, and above them the visit count is the sum of the
visits of the children. -/
def CTNode.Inv : ℕ → CTNode → Prop
  | 0, n => 0 ≤ n.count false ∧ 0 ≤ n.count true
      ∧ n.log_kt = ktLog (n.count false).toNat (n.count true).toNat
      ∧ n.child false = none ∧ n.child true = none
  | k + 1, n => 0 ≤ n.count false ∧ 0 ≤ n.count true
      ∧ n.log_kt = ktLog (n.count false).toNat (n.count true).toNat
      ∧ n.visits = optVisits (n.child false) + optVisits (n.child true)
      ∧ (match n.child false with | none => True | some c => CTNode.Inv k c)
      ∧ (match n.child true with | none => True | some c => CTNode.Inv k c)

/-- The cached weighted probability is consistent at every node of the
subtree: it equals the value `updateLogProbability` computes from the
stored log KT estimate and the children. -/
def CTNode.WFlp : CTNode → Prop
  | .mk lk lp c0 c1 d0 d1 =>
    lp = (CTNode.mk lk lp c0 c1 d0 d1).lpFormula
      ∧ (match d0 with | none => True | some c => c.WFlp)
      ∧ (match d1 with | none => True | some c => c.WFlp)

/-- All counts and log KT estimates in the subtree are zero. -/
def CTNode.Triv : CTNode → Prop
  | .mk lk _ c0 c1 d0 d1 =>
    c0 = 0 ∧ c1 = 0 ∧ lk = 0
      ∧ (match d0 with | none => True | some c => c.Triv)
      ∧ (match d1 with | none => True | some c => c.Triv)

/-- Observable equality of context trees: same depth, same history, and the
same counts and log KT data along every path (so the trees agree up to
all-zero stub subtrees). -/
def CTEq (t u : ContextTree) : Prop :=
  t.depth = u.depth ∧ t.history = u.history ∧ ∀ p, t.root.cval p = u.root.cval p

/-! ## Agent (agent.hpp / agent.cpp)

Randomness is supplied by an explicit oracle: a stream of `rand01` outcomes
(reals in the unit interval) and a stream of `rand`-derived outcomes
(naturals), each with a cursor.  Every primitive draw consumes one entry, so
the agent functions are deterministic functions of state and oracle. -/

/-- The environment and option data the agent consumes: the bit widths, the
action/reward bounds and the search options (`agent-horizon`,
`mc-simulations`). -/
structure AgentCfg where
  actionBits : ℕ
  obsBits : ℕ
  rewardBits : ℕ
  maxAction : ℕ
  maxReward : ℕ
  horizon : ℕ
  mcSimulations : ℕ

/-- `Environment::perceptBits()`: observation bits plus reward bits. -/
def AgentCfg.perceptBits (cfg : AgentCfg) : ℕ := cfg.obsBits + cfg.rewardBits

/-- `update_t` (agent.hpp): the last-update tag. -/
inductive UpdateTag where
  | action_update
  | percept_update
deriving DecidableEq

/-- The mutable agent state: the context tree, the age (`m_time_cycle`), the
accumulated reward and the last-update tag. -/
structure AgentState where
  ct : ContextTree
  timeCycle : ℤ
  totalReward : ℝ
  lastUpdate : UpdateTag

/-- The random-draw oracle. -/
structure Oracle where
  reals : ℕ → ℝ
  nats : ℕ → ℕ
  ri : ℕ
  ni : ℕ

/-- Draw one `rand01()` outcome. -/
def Oracle.takeReal (ω : Oracle) : ℝ × Oracle :=
  (ω.reals ω.ri, { ω with ri := ω.ri + 1 })

/-- Draw one `rand()`-derived outcome. -/
def Oracle.takeNat (ω : Oracle) : ℕ × Oracle :=
  (ω.nats ω.ni, { ω with ni := ω.ni + 1 })

/-- `ContextTree::genRandomSymbolsAndUpdate`: for each of `bits` positions,
sample `symbols[i] = rand01() < predict(true)` and update the tree with the
sampled symbol.  Returns the symbols in sample order, the updated tree and
the advanced oracle. -/
noncomputable def ContextTree.genRandomSymbolsAndUpdate (t : ContextTree) (ω : Oracle) :
    ℕ → List Bool × ContextTree × Oracle
  | 0 => ([], t, ω)
  | bits + 1 =>
    let d := ω.takeReal
    let s : Bool := if d.1 < t.predict true then true else false
    let r := (t.update s).genRandomSymbolsAndUpdate d.2 bits
    (s :: r.1, r.2)

/-- `Agent::decodePercept`: the first `rewardBits` symbols decode the reward,
the remaining symbols the observation.  Returns `(observation, reward)`. -/
def decodePercept (cfg : AgentCfg) (symbols : List Bool) : ℕ × ℕ :=
  (decode (symbols.drop cfg.rewardBits) cfg.obsBits,
   decode (symbols.take cfg.rewardBits) cfg.rewardBits)

/-- `Agent::encodeAction`: clear the list and encode `actionBits` bits. -/
def encodeAction (cfg : AgentCfg) (a : ℕ) : List Bool := encode [] a cfg.actionBits

/-- `Agent::modelUpdate(action_t)`: encode the action and append it to the
history only (never training the mixture), increment the age, set the
last-update tag to action.  (The source asserts `isValidAction` and
`m_last_update == percept_update` on entry.) -/
def Agent.modelUpdateAction (cfg : AgentCfg) (σ : AgentState) (a : ℕ) : AgentState :=
  { σ with ct := σ.ct.updateHistoryList (encodeAction cfg a),
           timeCycle := σ.timeCycle + 1,
           lastUpdate := .action_update }

/-- `Agent::genPerceptAndUpdate`: sample `perceptBits` symbols from the
context tree (training it), decode `(observation, reward)`, add the reward
to the running total and set the last-update tag to percept. -/
noncomputable def Agent.genPerceptAndUpdate (cfg : AgentCfg) (σ : AgentState) (ω : Oracle) :
    (ℕ × ℕ) × AgentState × Oracle :=
  let g := σ.ct.genRandomSymbolsAndUpdate ω cfg.perceptBits
  let p := decodePercept cfg g.1
  (p, { σ with ct := g.2.1,
               totalReward := σ.totalReward + (p.2 : ℝ),
               lastUpdate := .percept_update }, g.2.2)

/-- `ModelUndo` (agent.hpp): the snapshot of age, total reward, history size
and last-update tag. -/
structure ModelUndo where
  age : ℤ
  reward : ℝ
  historySize : ℕ
  lastUpdate : UpdateTag

/-- `ModelUndo::ModelUndo(agent)`. -/
def ModelUndo.ofAgent (σ : AgentState) : ModelUndo :=
  ⟨σ.timeCycle, σ.totalReward, σ.ct.historySize, σ.lastUpdate⟩

/-- One iteration of the while loop of `Agent::modelRevert`: undo a percept
(revert `perceptBits` tree updates) or an action (shrink the history by
`actionBits`), flipping the last-update tag. -/
noncomputable def Agent.modelRevertStep (cfg : AgentCfg) (σ : AgentState) : AgentState :=
  if σ.lastUpdate = .percept_update then
    { σ with ct := σ.ct.revertN cfg.perceptBits, lastUpdate := .action_update }
  else
    { σ with ct := σ.ct.revertHistory cfg.actionBits, lastUpdate := .percept_update }

/-- The while loop of `Agent::modelRevert` (`while historySize > target`),
fuel-indexed to make the recursion structural: when the bit widths are
positive every iteration removes at least one history symbol, so fuel equal
to the starting history size bounds the iteration count. -/
noncomputable def Agent.modelRevertLoop (cfg : AgentCfg) :
    AgentState → ℕ → ℕ → AgentState
  | σ, _, 0 => σ
  | σ, target, fuel + 1 =>
    if target < σ.ct.historySize then
      Agent.modelRevertLoop cfg (Agent.modelRevertStep cfg σ) target fuel
    else σ

/-- `Agent::modelRevert`: run the undo loop down to the snapshot history
size, then restore age, total reward and last-update tag from the
snapshot. -/
noncomputable def Agent.modelRevert (cfg : AgentCfg) (σ : AgentState) (mu : ModelUndo) :
    AgentState :=
  let σ1 := Agent.modelRevertLoop cfg σ mu.historySize σ.ct.historySize
  { σ1 with timeCycle := mu.age, totalReward := mu.reward, lastUpdate := mu.lastUpdate }

/-- `Agent::genRandomAction`: `randRange(maxAction + 1)`. -/
def Agent.genRandomAction (cfg : AgentCfg) (ω : Oracle) : ℕ × Oracle :=
  let d := ω.takeNat
  (randRange d.1 (cfg.maxAction + 1), d.2)

/-- `Agent::playout`: for `horizon` steps, perform a uniformly random action
(`modelUpdate`) and sample a percept from the model
(`genPerceptAndUpdate`), accumulating the sampled rewards. -/
noncomputable def Agent.playout (cfg : AgentCfg) :
    AgentState → Oracle → ℕ → ℝ × AgentState × Oracle
  | σ, ω, 0 => (0, σ, ω)
  | σ, ω, h + 1 =>
    let d := Agent.genRandomAction cfg ω
    let σ1 := Agent.modelUpdateAction cfg σ d.1
    let g := Agent.genPerceptAndUpdate cfg σ1 d.2
    let rest := Agent.playout cfg g.2.1 g.2.2 h
    ((g.1.2 : ℝ) + rest.1, rest.2)

/-! ## Search nodes (search.hpp / search.cpp) -/

/-- `nodetype_t`. -/
inductive Nodetype where
  | chance
  | decision
deriving DecidableEq

/-- A `SearchNode`: node type, sampled mean reward, visit count and the child
map (`std::map<interaction_t, SearchNode*>`), modelled as an association
list keyed by the child index. -/
inductive SearchNode : Type where
  | mk (type : Nodetype) (mean : ℝ) (visits : ℤ) (children : List (ℕ × SearchNode)) :
      SearchNode

/-- `SearchNode::m_type`. -/
def SearchNode.type : SearchNode → Nodetype
  | .mk ty _ _ _ => ty

/-- `SearchNode::expectation()` (the mean `m_mean`). -/
def SearchNode.expectation : SearchNode → ℝ
  | .mk _ m _ _ => m

/-- `SearchNode::visits()`. -/
def SearchNode.visits : SearchNode → ℤ
  | .mk _ _ v _ => v

/-- `SearchNode::m_child`. -/
def SearchNode.children : SearchNode → List (ℕ × SearchNode)
  | .mk _ _ _ cs => cs

/-- Map lookup for the child list. -/
def assocFind : List (ℕ × SearchNode) → ℕ → Option SearchNode
  | [], _ => none
  | (j, d) :: rest, i => if j = i then some d else assocFind rest i

/-- `SearchNode::child(i)`: `NULL` (none) when the index is absent. -/
def SearchNode.child (n : SearchNode) (i : ℕ) : Option SearchNode :=
  assocFind n.children i

/-- `m_child[i] = c` on a `std::map`: overwrite or insert. -/
def assocSet : List (ℕ × SearchNode) → ℕ → SearchNode → List (ℕ × SearchNode)
  | [], i, c => [(i, c)]
  | (j, d) :: rest, i, c =>
    if j = i then (j, c) :: rest else (j, d) :: assocSet rest i c

/-- The statistics update ending `SearchNode::sample`:
`m_mean = (reward + visits * mean) / (visits + 1); m_visits++`. -/
noncomputable def SearchNode.addSample (n : SearchNode) (reward : ℝ) : SearchNode :=
  .mk n.type ((reward + (n.visits : ℝ) * n.expectation) / ((n.visits : ℝ) + 1))
    (n.visits + 1) n.children

/-- `exploration_constant` (search.cpp). -/
def exploration_constant : ℝ := 2.0

/-- `unexplored_bias` (search.cpp `SearchNode::selectAction`). -/
def unexplored_bias : ℝ := 1000000000.0

/-- The UCB priority of one candidate action in `SearchNode::selectAction`:
the unexplored bias for a missing or unvisited child, otherwise
`expectation + horizon * maxReward * sqrt(exploration_constant * log(visits) / child_visits)`. -/
noncomputable def ucbPriority (cfg : AgentCfg) (node : SearchNode)
    (c : Option SearchNode) : ℝ :=
  match c with
  | none => unexplored_bias
  | some n =>
    if n.visits = 0 then unexplored_bias
    else n.expectation + ((cfg.horizon : ℝ) * (cfg.maxReward : ℝ))
      * Real.sqrt (exploration_constant * Real.log (node.visits : ℝ) / (n.visits : ℝ))

/-- The loop of `SearchNode::selectAction`: `best_priority` starts at minus
infinity (`⊥` in `WithBot ℝ`, matching IEEE: adding a finite tie-break
noise to minus infinity stays minus infinity) and `best_action` starts
uninitialised (`none`).  Each candidate draws one `rand01()` outcome for
the comparison `priority > best_priority + rand01() * 0.001`. -/
noncomputable def selectActionLoop (cfg : AgentCfg) (node : SearchNode) :
    List ℕ → Option ℕ × WithBot ℝ → Oracle → (Option ℕ × WithBot ℝ) × Oracle
  | [], st, ω => (st, ω)
  | a :: rest, st, ω =>
    let d := ω.takeReal
    let priority := ucbPriority cfg node (node.child a)
    if st.2 + ((d.1 * 0.001 : ℝ) : WithBot ℝ) < (priority : WithBot ℝ) then
      selectActionLoop cfg node rest (some a, (priority : WithBot ℝ)) d.2
    else
      selectActionLoop cfg node rest st d.2

/-- `SearchNode::selectAction`: iterate the UCB loop over the actions
`0 .. maxAction` and return the selected action (`none` models the
uninitialised `best_action`, which is proved unreachable). -/
noncomputable def SearchNode.selectAction (cfg : AgentCfg) (node : SearchNode)
    (ω : Oracle) : Option ℕ × Oracle :=
  let r := selectActionLoop cfg node (List.range (cfg.maxAction + 1)) (none, ⊥) ω
  (r.1.1, r.2)

/-- The index under which the chance branch of `SearchNode::sample` stores
and looks up the child for a generated percept `(observation o, reward r)`:
the source writes `m_child[o]`, using the observation alone. -/
def chanceChildIndex (o r : ℕ) : ℕ := o

/-- `SearchNode::sample`.  Returns `(reward, updated node, agent state,
oracle)`.  The recursion alternates node kinds, decrementing the horizon
only on the chance-to-decision link; on the alternating trees the function
itself builds its depth is at most `2 * horizon + 1`, and an explicit fuel
parameter of at least that bound makes the recursion structural without
changing the behaviour (exhausted fuel, like a zero horizon, returns reward
0 and leaves everything unchanged). -/
noncomputable def SearchNode.sample (cfg : AgentCfg) :
    ℕ → SearchNode → AgentState → Oracle → ℕ → ℝ × SearchNode × AgentState × Oracle
  | 0, n, σ, ω, _ => (0, n, σ, ω)
  | fuel + 1, n, σ, ω, horizon =>
    if horizon = 0 then (0, n, σ, ω)
    else if n.type = .chance then
      let g := Agent.genPerceptAndUpdate cfg σ ω
      let idx := chanceChildIndex g.1.1 g.1.2
      let c := (n.child idx).getD (SearchNode.mk .decision 0 0 [])
      let s := SearchNode.sample cfg fuel c g.2.1 g.2.2 (horizon - 1)
      let reward := (g.1.2 : ℝ) + s.1
      (reward,
        (SearchNode.mk n.type n.expectation n.visits
          (assocSet n.children idx s.2.1)).addSample reward,
        s.2.2.1, s.2.2.2)
    else if n.visits = 0 then
      let p := Agent.playout cfg σ ω horizon
      (p.1, n.addSample p.1, p.2.1, p.2.2)
    else
      let sel := SearchNode.selectAction cfg n ω
      let a := sel.1.getD 0
      let σ1 := Agent.modelUpdateAction cfg σ a
      let c := (n.child a).getD (SearchNode.mk .chance 0 0 [])
      let s := SearchNode.sample cfg fuel c σ1 sel.2 horizon
      (s.1,
        (SearchNode.mk n.type n.expectation n.visits
          (assocSet n.children a s.2.1)).addSample s.1,
        s.2.2.1, s.2.2.2)

/-- The main sampling loop of `Agent::search`: `mc-simulations` times, sample
from the root and revert the model to the pre-search snapshot. -/
noncomputable def Agent.searchLoop (cfg : AgentCfg) (undo : ModelUndo) :
    SearchNode → AgentState → Oracle → ℕ → SearchNode × AgentState × Oracle
  | root, σ, ω, 0 => (root, σ, ω)
  | root, σ, ω, m + 1 =>
    let s := SearchNode.sample cfg (2 * cfg.horizon + 1) root σ ω cfg.horizon
    let σ1 := Agent.modelRevert cfg s.2.2.1 undo
    Agent.searchLoop cfg undo s.2.1 σ1 s.2.2.2 m

/-- The best-action selection ending `Agent::search`: over `a = 0 ..
maxAction`, skip absent children and pick the child with the highest
`expectation() + rand01() * 0.0001`, starting from a uniformly random
default action and `best_mean = -1`. -/
noncomputable def Agent.searchSelect (cfg : AgentCfg) (root : SearchNode) :
    List ℕ → ℕ × ℝ → Oracle → ℕ × Oracle
  | [], best, ω => (best.1, ω)
  | a :: rest, best, ω =>
    match root.child a with
    | none => Agent.searchSelect cfg root rest best ω
    | some c =>
      let d := ω.takeReal
      let mean := c.expectation + d.1 * 0.0001
      if best.2 < mean then Agent.searchSelect cfg root rest (a, mean) d.2
      else Agent.searchSelect cfg root rest best d.2

/-- `Agent::search`: snapshot a `ModelUndo`, run `mc-simulations` samples
from a fresh decision root (reverting the model after each), then return
the action whose direct child has the best mean.  Returns the chosen action
and the agent state after the loop. -/
noncomputable def Agent.search (cfg : AgentCfg) (σ : AgentState) (ω : Oracle) :
    ℕ × AgentState × Oracle :=
  let undo := ModelUndo.ofAgent σ
  let l := Agent.searchLoop cfg undo (SearchNode.mk .decision 0 0 []) σ ω cfg.mcSimulations
  let d := Agent.genRandomAction cfg l.2.2
  let sel := Agent.searchSelect cfg l.1 (List.range (cfg.maxAction + 1)) (d.1, -1) d.2
  (sel.1, l.2.1, sel.2)

/-- The opposite node kind: decision and chance nodes alternate. -/
def Nodetype.flip : Nodetype → Nodetype
  | .chance => .decision
  | .decision => .chance

/-- Well-typedness of a search tree: every child of a decision node is a
chance node and vice versa.  The trees `SearchNode::sample` builds satisfy
this by construction. -/
inductive SearchNode.WellTyped : SearchNode → Prop where
  | mk (ty : Nodetype) (m : ℝ) (v : ℤ) (cs : List (ℕ × SearchNode)) :
      (∀ p ∈ cs, (p.2 : SearchNode).type = ty.flip) →
      (∀ p ∈ cs, SearchNode.WellTyped p.2) →
      SearchNode.WellTyped (.mk ty m v cs)

/-- The agent-state effect of one simulation: the reflexive-transitive
closure of the two history-extending operations `sample` and `playout`
perform, in their legal alternation (an action step requires the last
update to be a percept, matching the assertion in `modelUpdate(action_t)`,
and a percept step follows an action). -/
inductive SimReach (cfg : AgentCfg) : AgentState → AgentState → Prop where
  | refl (σ : AgentState) : SimReach cfg σ σ
  | act (σ σ1 : AgentState) (a : ℕ) : SimReach cfg σ σ1 →
      σ1.lastUpdate = .percept_update →
      SimReach cfg σ (Agent.modelUpdateAction cfg σ1 a)
  | per (σ σ1 : AgentState) (ω : Oracle) : SimReach cfg σ σ1 →
      σ1.lastUpdate = .action_update →
      SimReach cfg σ (Agent.genPerceptAndUpdate cfg σ1 ω).2.1

/-! ## Theorems -/

theorem encode_eq_append (value bits : ℕ) : ∀ symbols : List Bool,
    encode symbols value bits = symbols ++ encodeBits value bits := by
  induction bits generalizing value with
  | zero => intro s; simp [encode, encodeBits]
  | succ b ih => intro s; simp [encode, encodeBits, ih]

theorem encodeBits_length (value bits : ℕ) : (encodeBits value bits).length = bits := by
  induction bits generalizing value with
  | zero => simp [encodeBits]
  | succ b ih => simp [encodeBits, ih]

theorem mod_two_pow_succ (v b : ℕ) : v % 2 ^ (b + 1) = v % 2 + 2 * (v / 2 % 2 ^ b) := by
  have h1 : (2 * (v / 2)) % (2 * 2 ^ b) = 2 * (v / 2 % 2 ^ b) := Nat.mul_mod_mul_left 2 _ _
  have h2 : v % 2 + 2 * (v / 2 % 2 ^ b) < 2 * 2 ^ b := by
    have := Nat.mod_lt (v / 2) (y := 2 ^ b) (Nat.pos_pow_of_pos b (by norm_num))
    have := Nat.mod_lt v (y := 2) (by norm_num)
    omega
  have h3 : v = 2 * (v / 2) + v % 2 := by omega
  calc v % 2 ^ (b + 1) = (2 * (v / 2) + v % 2) % (2 * 2 ^ b) := by
        rw [← h3]; ring_nf
      _ = (2 * (v / 2) % (2 * 2 ^ b) + v % 2 % (2 * 2 ^ b)) % (2 * 2 ^ b) := by
        rw [Nat.add_mod]
      _ = v % 2 + 2 * (v / 2 % 2 ^ b) := by
        rw [h1]
        have hv2 : v % 2 % (2 * 2 ^ b) = v % 2 := by
          apply Nat.mod_eq_of_lt
          have := Nat.mod_lt v (y := 2) (by norm_num)
          have : (1 : ℕ) ≤ 2 ^ b := Nat.one_le_two_pow
          omega
        rw [hv2, Nat.mod_eq_of_lt (by omega)]
        omega

theorem decode_encodeBits (bits : ℕ) : ∀ value acc : ℕ,
    ((encodeBits value bits).reverse).foldl
      (fun value s => (if s then 1 else 0) + 2 * value) acc
      = acc * 2 ^ bits + value % 2 ^ bits := by
  induction bits with
  | zero => intro v acc; simp [encodeBits, Nat.mod_one]
  | succ b ih =>
    intro v acc
    have hsplit : (encodeBits v (b + 1)).reverse
        = (encodeBits (v / 2) b).reverse ++ [v % 2 == 1] := by
      simp [encodeBits]
    rw [hsplit, List.foldl_append, ih (v / 2) acc]
    simp only [List.foldl_cons, List.foldl_nil]
    have key := mod_two_pow_succ v b
    have hmod : v % 2 = 0 ∨ v % 2 = 1 := by omega
    rcases hmod with h | h <;> rw [key, h] <;> simp [h, pow_succ] <;> ring

/-- C4: for every bit width `b` with `1 ≤ b ≤ 31` and every value
`v < 2 ^ b`, decoding the last `b` symbols of a list produced by
`encode(v, b)` returns `v` (encode appends the value least-significant-bit
first; decode reads the last `b` symbols most-significant first). -/
theorem decode_encode (symbols : List Bool) (v b : ℕ)
    (hb1 : 1 ≤ b) (hb31 : b ≤ 31) (hv : v < 2 ^ b) :
    decode (encode symbols v b) b = v := by
  rw [decode, encode_eq_append, List.reverse_append]
  have hlen : ((encodeBits v b).reverse).length = b := by
    simp [encodeBits_length]
  rw [List.take_left' hlen, decode_encodeBits]
  simpa using Nat.mod_eq_of_lt hv

/-- Witness for C4 at `b = 5`, `v = 19`. -/
theorem decode_encode_witness :
    1 ≤ 5 ∧ 5 ≤ 31 ∧ 19 < 2 ^ 5 ∧ decode (encode [] 19 5) 5 = 19 :=
  ⟨by norm_num, by norm_num, by norm_num,
    decode_encode [] 19 5 (by norm_num) (by norm_num) (by norm_num)⟩

/-- C7 counterexample: `RAND_MAX` is a possible outcome of `rand()`, and on
that outcome `rand01` returns exactly `1`, which is not `< 1`.  So not every
value returned by `rand01()` lies in the half-open interval `[0, 1)`. -/
theorem rand01_can_reach_one :
    RAND_MAX ≤ RAND_MAX ∧ rand01 RAND_MAX = 1 ∧ ¬ (rand01 RAND_MAX < 1) := by
  have h : rand01 RAND_MAX = 1 := by
    rw [rand01]
    apply div_self
    norm_num [RAND_MAX]
  exact ⟨le_rfl, h, by rw [h]; exact lt_irrefl 1⟩

/-- C7 (amended): every outcome of `rand01()` lies in the closed interval
`[0, 1]` (the implementation comment itself says: return a number uniformly
between `[0, 1]`). -/
theorem rand01_mem_closed_unit (r : ℕ) (hr : r ≤ RAND_MAX) :
    0 ≤ rand01 r ∧ rand01 r ≤ 1 := by
  constructor
  · exact div_nonneg (by positivity) (by positivity)
  · rw [rand01, div_le_one (by norm_num [RAND_MAX])]
    exact_mod_cast hr

/-- Witness for C7 (amended) at `r = 7`. -/
theorem rand01_mem_closed_unit_witness :
    7 ≤ RAND_MAX ∧ 0 ≤ rand01 7 ∧ rand01 7 ≤ 1 :=
  ⟨by norm_num [RAND_MAX], rand01_mem_closed_unit 7 (by norm_num [RAND_MAX])⟩

/-! ### Basic context-tree lemmas -/

@[simp] theorem CTNode.log_kt_mk (lk lp : ℝ) (c0 c1 : ℤ) (d0 d1 : Option CTNode) :
    (CTNode.mk lk lp c0 c1 d0 d1).log_kt = lk := rfl

@[simp] theorem CTNode.log_probability_mk (lk lp : ℝ) (c0 c1 : ℤ) (d0 d1 : Option CTNode) :
    (CTNode.mk lk lp c0 c1 d0 d1).log_probability = lp := rfl

@[simp] theorem CTNode.count_mk_false (lk lp : ℝ) (c0 c1 : ℤ) (d0 d1 : Option CTNode) :
    (CTNode.mk lk lp c0 c1 d0 d1).count false = c0 := rfl

@[simp] theorem CTNode.count_mk_true (lk lp : ℝ) (c0 c1 : ℤ) (d0 d1 : Option CTNode) :
    (CTNode.mk lk lp c0 c1 d0 d1).count true = c1 := rfl

@[simp] theorem CTNode.child_mk_false (lk lp : ℝ) (c0 c1 : ℤ) (d0 d1 : Option CTNode) :
    (CTNode.mk lk lp c0 c1 d0 d1).child false = d0 := rfl

@[simp] theorem CTNode.child_mk_true (lk lp : ℝ) (c0 c1 : ℤ) (d0 d1 : Option CTNode) :
    (CTNode.mk lk lp c0 c1 d0 d1).child true = d1 := rfl

@[simp] theorem CTNode.log_kt_withLogKt (n : CTNode) (x : ℝ) :
    (n.withLogKt x).log_kt = x := by
  cases n; rfl

@[simp] theorem CTNode.log_probability_withLogKt (n : CTNode) (x : ℝ) :
    (n.withLogKt x).log_probability = n.log_probability := by
  cases n; rfl

@[simp] theorem CTNode.count_withLogKt (n : CTNode) (x : ℝ) (b : Bool) :
    (n.withLogKt x).count b = n.count b := by
  cases n <;> cases b <;> rfl

@[simp] theorem CTNode.child_withLogKt (n : CTNode) (x : ℝ) (b : Bool) :
    (n.withLogKt x).child b = n.child b := by
  cases n <;> cases b <;> rfl

@[simp] theorem CTNode.log_kt_withLogProbability (n : CTNode) (x : ℝ) :
    (n.withLogProbability x).log_kt = n.log_kt := by
  cases n; rfl

@[simp] theorem CTNode.log_probability_withLogProbability (n : CTNode) (x : ℝ) :
    (n.withLogProbability x).log_probability = x := by
  cases n; rfl

@[simp] theorem CTNode.count_withLogProbability (n : CTNode) (x : ℝ) (b : Bool) :
    (n.withLogProbability x).count b = n.count b := by
  cases n <;> cases b <;> rfl

@[simp] theorem CTNode.child_withLogProbability (n : CTNode) (x : ℝ) (b : Bool) :
    (n.withLogProbability x).child b = n.child b := by
  cases n <;> cases b <;> rfl

@[simp] theorem CTNode.log_kt_withCount (n : CTNode) (s : Bool) (v : ℤ) :
    (n.withCount s v).log_kt = n.log_kt := by
  cases n <;> cases s <;> rfl

@[simp] theorem CTNode.log_probability_withCount (n : CTNode) (s : Bool) (v : ℤ) :
    (n.withCount s v).log_probability = n.log_probability := by
  cases n <;> cases s <;> rfl

theorem CTNode.count_withCount (n : CTNode) (s : Bool) (v : ℤ) (b : Bool) :
    (n.withCount s v).count b = if b = s then v else n.count b := by
  cases n <;> cases s <;> cases b <;> simp [CTNode.withCount, CTNode.count]

@[simp] theorem CTNode.count_withCount_same (n : CTNode) (s : Bool) (v : ℤ) :
    (n.withCount s v).count s = v := by
  simp [CTNode.count_withCount]

@[simp] theorem CTNode.child_withCount (n : CTNode) (s : Bool) (v : ℤ) (b : Bool) :
    (n.withCount s v).child b = n.child b := by
  cases n <;> cases s <;> cases b <;> rfl

@[simp] theorem CTNode.log_kt_withChild (n : CTNode) (s : Bool) (d : Option CTNode) :
    (n.withChild s d).log_kt = n.log_kt := by
  cases n <;> cases s <;> rfl

@[simp] theorem CTNode.log_probability_withChild (n : CTNode) (s : Bool) (d : Option CTNode) :
    (n.withChild s d).log_probability = n.log_probability := by
  cases n <;> cases s <;> rfl

@[simp] theorem CTNode.count_withChild (n : CTNode) (s : Bool) (d : Option CTNode) (b : Bool) :
    (n.withChild s d).count b = n.count b := by
  cases n <;> cases s <;> cases b <;> rfl

theorem CTNode.child_withChild (n : CTNode) (s : Bool) (d : Option CTNode) (b : Bool) :
    (n.withChild s d).child b = if b = s then d else n.child b := by
  cases n <;> cases s <;> cases b <;> simp [CTNode.withChild, CTNode.child]

@[simp] theorem CTNode.child_withChild_same (n : CTNode) (s : Bool) (d : Option CTNode) :
    (n.withChild s d).child s = d := by
  simp [CTNode.child_withChild]

@[simp] theorem CTNode.visits_withLogKt (n : CTNode) (x : ℝ) :
    (n.withLogKt x).visits = n.visits := by
  simp [CTNode.visits]

@[simp] theorem CTNode.visits_withLogProbability (n : CTNode) (x : ℝ) :
    (n.withLogProbability x).visits = n.visits := by
  simp [CTNode.visits]

@[simp] theorem CTNode.visits_withChild (n : CTNode) (s : Bool) (d : Option CTNode) :
    (n.withChild s d).visits = n.visits := by
  simp [CTNode.visits]

@[simp] theorem CTNode.logKTMultiplier_withLogKt (n : CTNode) (x : ℝ) (s : Bool) :
    (n.withLogKt x).logKTMultiplier s = n.logKTMultiplier s := by
  simp [CTNode.logKTMultiplier]

@[simp] theorem CTNode.logKTMultiplier_withLogProbability (n : CTNode) (x : ℝ) (s : Bool) :
    (n.withLogProbability x).logKTMultiplier s = n.logKTMultiplier s := by
  simp [CTNode.logKTMultiplier]

@[simp] theorem CTNode.logKTMultiplier_withChild (n : CTNode) (s : Bool) (d : Option CTNode)
    (b : Bool) : (n.withChild s d).logKTMultiplier b = n.logKTMultiplier b := by
  simp [CTNode.logKTMultiplier, CTNode.visits]

@[simp] theorem CTNode.isLeafNode_withLogKt (n : CTNode) (x : ℝ) :
    (n.withLogKt x).isLeafNode = n.isLeafNode := by
  simp [CTNode.isLeafNode]

@[simp] theorem CTNode.isLeafNode_withLogProbability (n : CTNode) (x : ℝ) :
    (n.withLogProbability x).isLeafNode = n.isLeafNode := by
  simp [CTNode.isLeafNode]

@[simp] theorem CTNode.isLeafNode_withCount (n : CTNode) (s : Bool) (v : ℤ) :
    (n.withCount s v).isLeafNode = n.isLeafNode := by
  simp [CTNode.isLeafNode]

theorem CTNode.lpFormula_withCount (n : CTNode) (s : Bool) (v : ℤ) :
    (n.withCount s v).lpFormula = n.lpFormula := by
  simp [CTNode.lpFormula]

/-- Characterization of `CTNode::update`: the symbol count is incremented. -/
theorem CTNode.update_count (n : CTNode) (s b : Bool) :
    (n.update s).count b = if b = s then n.count b + 1 else n.count b := by
  by_cases h : b = s <;>
    simp [CTNode.update, CTNode.updateLogProbability, CTNode.count_withCount, h]

/-- Characterization of `CTNode::update`: the children are untouched. -/
theorem CTNode.update_child (n : CTNode) (s b : Bool) :
    (n.update s).child b = n.child b := by
  simp [CTNode.update, CTNode.updateLogProbability]

/-- Characterization of `CTNode::update`: the log KT estimate gains the
multiplier computed from the pre-update counts. -/
theorem CTNode.update_log_kt (n : CTNode) (s : Bool) :
    (n.update s).log_kt = n.log_kt + n.logKTMultiplier s := by
  simp [CTNode.update, CTNode.updateLogProbability]

/-- Characterization of `CTNode::update`: the stored weighted probability is
recomputed from the new log KT estimate and the unchanged children. -/
theorem CTNode.update_log_probability (n : CTNode) (s : Bool) :
    (n.update s).log_probability
      = (n.withLogKt (n.log_kt + n.logKTMultiplier s)).lpFormula := by
  simp [CTNode.update, CTNode.updateLogProbability]

/-! ### Invariant helper lemmas -/

theorem CTNode.Inv_count_nonneg {k : ℕ} {n : CTNode} (h : CTNode.Inv k n) (b : Bool) :
    0 ≤ n.count b := by
  cases k <;> cases b <;> simp only [CTNode.Inv] at h <;> tauto

theorem CTNode.Inv_log_kt {k : ℕ} {n : CTNode} (h : CTNode.Inv k n) :
    n.log_kt = ktLog (n.count false).toNat (n.count true).toNat := by
  cases k <;> simp only [CTNode.Inv] at h <;> tauto

theorem CTNode.Inv_zero_child {n : CTNode} (h : CTNode.Inv 0 n) (b : Bool) :
    n.child b = none := by
  cases b <;> simp only [CTNode.Inv] at h <;> tauto

theorem CTNode.Inv_visits_sum {k : ℕ} {n : CTNode} (h : CTNode.Inv (k + 1) n) :
    n.visits = optVisits (n.child false) + optVisits (n.child true) := by
  simp only [CTNode.Inv] at h; tauto

theorem CTNode.Inv_child {k : ℕ} {n : CTNode} (h : CTNode.Inv (k + 1) n) {b : Bool}
    {c : CTNode} (hc : n.child b = some c) : CTNode.Inv k c := by
  simp only [CTNode.Inv] at h
  obtain ⟨-, -, -, -, h0, h1⟩ := h
  cases b
  · rw [hc] at h0; exact h0
  · rw [hc] at h1; exact h1

theorem ktLog_zero : ktLog 0 0 = 0 := by
  simp [ktLog]

theorem CTNode.Inv_init (k : ℕ) : CTNode.Inv k CTNode.init := by
  cases k <;>
    simp [CTNode.Inv, CTNode.init, CTNode.count, CTNode.child, CTNode.visits,
      optVisits, ktLog_zero]

theorem CTNode.WFlp_lp {n : CTNode} (h : n.WFlp) :
    n.log_probability = n.lpFormula := by
  cases n; rw [CTNode.WFlp.eq_def] at h; tauto

theorem CTNode.WFlp_child {n : CTNode} (h : n.WFlp) {b : Bool} {c : CTNode}
    (hc : n.child b = some c) : c.WFlp := by
  cases n with
  | mk lk lp c0 c1 d0 d1 =>
    rw [CTNode.WFlp.eq_def] at h
    obtain ⟨-, h0, h1⟩ := h
    cases b
    · simp only [CTNode.child] at hc; rw [hc] at h0; exact h0
    · simp only [CTNode.child] at hc; rw [hc] at h1; exact h1

theorem CTNode.WFlp_mk_iff (lk lp : ℝ) (c0 c1 : ℤ) (d0 d1 : Option CTNode) :
    (CTNode.mk lk lp c0 c1 d0 d1).WFlp
      ↔ lp = (CTNode.mk lk lp c0 c1 d0 d1).lpFormula
        ∧ (match d0 with | none => True | some c => c.WFlp)
        ∧ (match d1 with | none => True | some c => c.WFlp) := by
  rw [CTNode.WFlp.eq_def]

theorem CTNode.WFlp_init : CTNode.init.WFlp := by
  simp [CTNode.init, CTNode.WFlp_mk_iff, CTNode.lpFormula, CTNode.isLeafNode,
    CTNode.child, CTNode.log_probability, CTNode.log_kt]

/-! ### KT estimator lemmas -/

theorem ktLog_succ_left (a b : ℕ) :
    ktLog (a + 1) b = ktLog a b + Real.log (((a : ℝ) + 0.5) / ((a : ℝ) + (b : ℝ) + 1)) := by
  have hnum : ((a : ℝ) + 0.5) ≠ 0 := by positivity
  have hden : ((a : ℝ) + (b : ℝ) + 1) ≠ 0 := by positivity
  rw [Real.log_div hnum hden, ktLog, ktLog, Finset.sum_range_succ]
  have : a + 1 + b = (a + b) + 1 := by omega
  rw [this, Finset.sum_range_succ]
  push_cast
  ring

theorem ktLog_succ_right (a b : ℕ) :
    ktLog a (b + 1) = ktLog a b + Real.log (((b : ℝ) + 0.5) / ((a : ℝ) + (b : ℝ) + 1)) := by
  have hnum : ((b : ℝ) + 0.5) ≠ 0 := by positivity
  have hden : ((a : ℝ) + (b : ℝ) + 1) ≠ 0 := by positivity
  rw [Real.log_div hnum hden, ktLog, ktLog, Finset.sum_range_succ]
  have : a + (b + 1) = (a + b) + 1 := by omega
  rw [this, Finset.sum_range_succ]
  push_cast
  ring

/-! ### Log-sum-exp and multiplier lemmas -/

theorem exp_logsumexp (x y : ℝ) :
    Real.exp (log_half + max x y + Real.log (1 + Real.exp (min x y - max x y)))
      = (Real.exp x + Real.exp y) / 2 := by
  have h1 : (0 : ℝ) < 0.5 := by norm_num
  have h2 : (0 : ℝ) < 1 + Real.exp (min x y - max x y) := by positivity
  rw [Real.exp_add, Real.exp_add, log_half, Real.exp_log h1, Real.exp_log h2]
  have key : Real.exp (max x y) * Real.exp (min x y - max x y) = Real.exp (min x y) := by
    rw [← Real.exp_add]; congr 1; ring
  rw [mul_add, mul_one, mul_assoc, key]
  rcases le_total x y with h | h
  · rw [max_eq_right h, min_eq_left h]; ring
  · rw [max_eq_left h, min_eq_right h]; ring

theorem exp_logKTMultiplier (n : CTNode) (s : Bool)
    (h0 : 0 ≤ n.count false) (h1 : 0 ≤ n.count true) :
    Real.exp (n.logKTMultiplier s)
      = ((n.count s : ℝ) + 0.5) / ((n.visits : ℝ) + 1) := by
  have hc : (0 : ℝ) ≤ (n.count s : ℝ) := by cases s <;> exact_mod_cast ‹_›
  have hv : (0 : ℝ) ≤ (n.visits : ℝ) := by
    have : (0 : ℤ) ≤ n.visits := by rw [CTNode.visits]; omega
    exact_mod_cast this
  rw [CTNode.logKTMultiplier, Real.exp_log (by positivity)]

theorem exp_mult_sum (n : CTNode) (h0 : 0 ≤ n.count false) (h1 : 0 ≤ n.count true) :
    Real.exp (n.logKTMultiplier false) + Real.exp (n.logKTMultiplier true) = 1 := by
  rw [exp_logKTMultiplier n false h0 h1, exp_logKTMultiplier n true h0 h1]
  have hv : n.visits = n.count false + n.count true := rfl
  have hpos : (0 : ℝ) < (n.visits : ℝ) + 1 := by
    have : (0 : ℤ) ≤ n.visits := by rw [CTNode.visits]; omega
    have : (0 : ℝ) ≤ (n.visits : ℝ) := by exact_mod_cast this
    linarith
  rw [div_add_div_same, div_eq_one_iff_eq (ne_of_gt hpos), hv]
  push_cast
  ring

/-! ### Weighted-probability lemmas -/

theorem CTNode.lpFormula_withLogProbability (n : CTNode) (x : ℝ) :
    (n.withLogProbability x).lpFormula = n.lpFormula := by
  simp [CTNode.lpFormula]

theorem CTNode.isLeafNode_withChild_some (n : CTNode) (h : Bool) (c : CTNode) :
    (n.withChild h (some c)).isLeafNode = false := by
  cases h <;> simp [CTNode.isLeafNode, CTNode.child_withChild]

@[simp] theorem CTNode.init_log_probability : CTNode.init.log_probability = 0 := rfl

@[simp] theorem CTNode.init_log_kt : CTNode.init.log_kt = 0 := rfl

theorem exp_lp_update_leaf (m : CTNode) (s : Bool) (hleaf : m.isLeafNode = true) :
    Real.exp (m.update s).log_probability
      = Real.exp (m.log_kt + m.logKTMultiplier s) := by
  rw [CTNode.update_log_probability, CTNode.lpFormula]
  simp [hleaf]

theorem exp_lp_update_nonleaf (m : CTNode) (s : Bool) (hleaf : m.isLeafNode = false) :
    Real.exp (m.update s).log_probability
      = (Real.exp (m.log_kt + m.logKTMultiplier s)
          + Real.exp (childLogProb (m.child false) + childLogProb (m.child true))) / 2 := by
  rw [CTNode.update_log_probability, CTNode.lpFormula]
  simp only [CTNode.isLeafNode_withLogKt, hleaf, Bool.false_eq_true, if_false,
    CTNode.log_kt_withLogKt, CTNode.child_withLogKt]
  exact exp_logsumexp _ _

theorem exp_lp_of_WFlp {n : CTNode} (h : n.WFlp) :
    Real.exp n.log_probability
      = if n.isLeafNode then Real.exp n.log_kt
        else (Real.exp n.log_kt
          + Real.exp (childLogProb (n.child false) + childLogProb (n.child true))) / 2 := by
  rw [CTNode.WFlp_lp h, CTNode.lpFormula]
  by_cases hl : n.isLeafNode
  · simp [hl]
  · simp only [hl, Bool.false_eq_true, if_false]
    exact exp_logsumexp _ _

/-- The node rewritten by one step of the context-path walk: the result of
`update` on a node whose path-side child has been replaced. -/
theorem exp_lp_update_withChild (n : CTNode) (h s : Bool) (cs : CTNode) :
    Real.exp ((n.withChild h (some cs)).update s).log_probability
      = (Real.exp (n.log_kt + n.logKTMultiplier s)
          + Real.exp (cs.log_probability + childLogProb (n.child (!h)))) / 2 := by
  rw [exp_lp_update_nonleaf _ s (CTNode.isLeafNode_withChild_some n h cs)]
  cases h <;>
    simp [CTNode.child_withChild, childLogProb, CTNode.logKTMultiplier, CTNode.visits] <;>
    ring_nf

/-- Key identity behind predict-consistency: updating along a fixed context
path with symbol `0` and with symbol `1` splits the exponentiated root
weighted probability, so the two block probabilities sum to the old one. -/
theorem sum_exp_updateAt : ∀ (hs : List Bool) (n : CTNode),
    CTNode.Inv hs.length n → n.WFlp →
    Real.exp (n.updateAt hs false).log_probability
      + Real.exp (n.updateAt hs true).log_probability
      = Real.exp n.log_probability := by
  intro hs
  induction hs with
  | nil =>
    intro n hInv hWF
    simp only [List.length_nil] at hInv
    have hleaf : n.isLeafNode = true := by
      simp [CTNode.isLeafNode, CTNode.Inv_zero_child hInv false,
        CTNode.Inv_zero_child hInv true]
    simp only [CTNode.updateAt]
    rw [exp_lp_update_leaf n false hleaf, exp_lp_update_leaf n true hleaf,
      Real.exp_add, Real.exp_add, exp_lp_of_WFlp hWF, if_pos hleaf, ← mul_add,
      exp_mult_sum n (CTNode.Inv_count_nonneg hInv false)
        (CTNode.Inv_count_nonneg hInv true), mul_one]
  | cons h rest ih =>
    intro n hInv hWF
    simp only [List.length_cons] at hInv
    have hc0Inv : CTNode.Inv rest.length ((n.child h).getD CTNode.init) := by
      cases hch : n.child h with
      | none => simpa [hch] using CTNode.Inv_init rest.length
      | some c => simpa [hch] using CTNode.Inv_child hInv hch
    have hc0WF : ((n.child h).getD CTNode.init).WFlp := by
      cases hch : n.child h with
      | none => simpa [hch] using CTNode.WFlp_init
      | some c => simpa [hch] using CTNode.WFlp_child hWF hch
    have IH := ih ((n.child h).getD CTNode.init) hc0Inv hc0WF
    have hmult := exp_mult_sum n (CTNode.Inv_count_nonneg hInv false)
      (CTNode.Inv_count_nonneg hInv true)
    simp only [CTNode.updateAt]
    rw [exp_lp_update_withChild, exp_lp_update_withChild,
      Real.exp_add, Real.exp_add, Real.exp_add, Real.exp_add]
    cases hch : n.child h with
    | some c =>
      have hnl : n.isLeafNode = false := by
        cases h <;> simp [CTNode.isLeafNode, hch]
      rw [exp_lp_of_WFlp hWF, if_neg (by simp [hnl])]
      simp only [hch, Option.getD_some] at IH
      have hS : childLogProb (n.child false) + childLogProb (n.child true)
          = c.log_probability + childLogProb (n.child (!h)) := by
        cases h <;> simp [hch, childLogProb] <;> ring
      rw [hS, Real.exp_add]
      simp only [Option.getD_some]
      linear_combination (Real.exp n.log_kt / 2) * hmult
        + (Real.exp (childLogProb (n.child (!h))) / 2) * IH
    | none =>
      simp only [hch, Option.getD_none] at IH
      rw [CTNode.init_log_probability, Real.exp_zero] at IH
      cases hoff : n.child (!h) with
      | none =>
        have hcf : n.child false = none := by
          cases h
          · exact hch
          · simpa using hoff
        have hct : n.child true = none := by
          cases h
          · simpa using hoff
          · exact hch
        have hleaf : n.isLeafNode = true := by
          simp [CTNode.isLeafNode, hcf, hct]
        have hlkt : n.log_kt = 0 := by
          have hv := CTNode.Inv_visits_sum hInv
          have h0 := CTNode.Inv_count_nonneg hInv false
          have h1 := CTNode.Inv_count_nonneg hInv true
          rw [hcf, hct] at hv
          simp only [optVisits, CTNode.visits] at hv
          have hzf : n.count false = 0 := by omega
          have hzt : n.count true = 0 := by omega
          rw [CTNode.Inv_log_kt hInv, hzf, hzt]
          simpa using ktLog_zero
        rw [exp_lp_of_WFlp hWF, if_pos hleaf, hlkt]
        simp only [Option.getD_none, childLogProb, Real.exp_zero, one_mul, mul_one]
        linarith [IH, hmult]
      | some d =>
        have hnl : n.isLeafNode = false := by
          cases h
          · have : n.child true = some d := by simpa using hoff
            simp [CTNode.isLeafNode, this]
          · have : n.child false = some d := by simpa using hoff
            simp [CTNode.isLeafNode, this]
        rw [exp_lp_of_WFlp hWF, if_neg (by simp [hnl])]
        have hS : childLogProb (n.child false) + childLogProb (n.child true)
            = d.log_probability := by
          cases h
          · have h2 : n.child true = some d := by simpa using hoff
            simp [hch, h2, childLogProb]
          · have h2 : n.child false = some d := by simpa using hoff
            simp [hch, h2, childLogProb]
        rw [hS]
        simp only [Option.getD_none, childLogProb]
        linear_combination (Real.exp n.log_kt / 2) * hmult
          + (Real.exp d.log_probability / 2) * IH

/-- C3: whenever the history is at least as long as the depth, the two
conditional probabilities returned by `ContextTree::predict` for symbol `1`
and symbol `0` at the same state sum to one (exactly, in the real-number
model, hence within `1e-9`).  The state is assumed to satisfy the
structural invariants `CTNode.Inv` and `CTNode.WFlp`, which hold for every
tree the program builds (see `CTNode.Inv_init`, `CTNode.WFlp_init` and the
preservation lemmas below). -/
theorem predict_complement (t : ContextTree)
    (hInv : CTNode.Inv t.depth t.root) (hWF : t.root.WFlp)
    (hlen : t.depth ≤ t.history.length) :
    |t.predict true + t.predict false - 1| ≤ 1e-9 := by
  have hnot : ¬ (t.history.length < t.depth) := by omega
  have htk : (t.history.take t.depth).length = t.depth := by
    rw [List.length_take]
    omega
  have hkey := sum_exp_updateAt (t.history.take t.depth) t.root (by rw [htk]; exact hInv) hWF
  have hupd : ∀ s, (t.update s).logBlockProbability
      = (t.root.updateAt (t.history.take t.depth) s).log_probability := by
    intro s
    rw [ContextTree.update, if_pos hlen]
    rfl
  rw [add_comm] at hkey
  rw [ContextTree.predict, if_neg hnot, ContextTree.predict, if_neg hnot,
    hupd, hupd, ContextTree.logBlockProbability, Real.exp_sub, Real.exp_sub,
    div_add_div_same, hkey, div_self (Real.exp_ne_zero _)]
  norm_num

/-- Witness for C3: a fresh depth-1 tree whose history holds one symbol. -/
theorem predict_complement_witness :
    |(ContextTree.mk CTNode.init 1 [false]).predict true
      + (ContextTree.mk CTNode.init 1 [false]).predict false - 1| ≤ 1e-9 :=
  predict_complement (ContextTree.mk CTNode.init 1 [false])
    (CTNode.Inv_init 1) CTNode.WFlp_init (by simp)

/-! ### Preservation of the invariants by updates

These lemmas justify the invariant hypotheses of the claims: every state the
program reaches by updating a fresh tree satisfies `CTNode.Inv` and
`CTNode.WFlp`. -/

theorem CTNode.WFlp_of (n : CTNode) (hlp : n.log_probability = n.lpFormula)
    (hc : ∀ b c, n.child b = some c → c.WFlp) : n.WFlp := by
  cases n with
  | mk lk lp c0 c1 d0 d1 =>
    rw [CTNode.WFlp.eq_def]
    refine ⟨hlp, ?_, ?_⟩
    · cases d0 with
      | none => trivial
      | some c => exact hc false c rfl
    · cases d1 with
      | none => trivial
      | some c => exact hc true c rfl

theorem CTNode.lp_update_consistent (n : CTNode) (s : Bool) :
    (n.update s).log_probability = (n.update s).lpFormula := by
  simp [CTNode.update, CTNode.updateLogProbability, CTNode.lpFormula_withCount,
    CTNode.lpFormula_withLogProbability]

theorem CTNode.WFlp_update_of_children (n : CTNode) (s : Bool)
    (hc : ∀ b c, n.child b = some c → c.WFlp) : (n.update s).WFlp := by
  refine CTNode.WFlp_of _ (CTNode.lp_update_consistent n s) ?_
  intro b c hb
  rw [CTNode.update_child] at hb
  exact hc b c hb

theorem CTNode.WFlp_updateAt : ∀ (hs : List Bool) (n : CTNode) (s : Bool),
    n.WFlp → (n.updateAt hs s).WFlp := by
  intro hs
  induction hs with
  | nil =>
    intro n s hWF
    exact CTNode.WFlp_update_of_children n s fun b c hb => CTNode.WFlp_child hWF hb
  | cons h rest ih =>
    intro n s hWF
    have hc0WF : ((n.child h).getD CTNode.init).WFlp := by
      cases hch : n.child h with
      | none => simpa [hch] using CTNode.WFlp_init
      | some c => simpa [hch] using CTNode.WFlp_child hWF hch
    simp only [CTNode.updateAt]
    apply CTNode.WFlp_update_of_children
    intro b c hb
    rw [CTNode.child_withChild] at hb
    by_cases hbh : b = h
    · simp only [hbh, if_pos rfl] at hb
      cases hb
      exact ih _ s hc0WF
    · simp only [if_neg hbh] at hb
      exact CTNode.WFlp_child hWF hb

theorem CTNode.count_update (n : CTNode) (s b : Bool) :
    (n.update s).count b = if b = s then n.count b + 1 else n.count b :=
  CTNode.update_count n s b

theorem CTNode.visits_update (n : CTNode) (s : Bool) :
    (n.update s).visits = n.visits + 1 := by
  rw [CTNode.visits, CTNode.visits, CTNode.update_count, CTNode.update_count]
  cases s <;> simp <;> ring

theorem CTNode.count_updateAt : ∀ (hs : List Bool) (n : CTNode) (s b : Bool),
    (n.updateAt hs s).count b = if b = s then n.count b + 1 else n.count b := by
  intro hs
  cases hs with
  | nil => intro n s b; exact CTNode.update_count n s b
  | cons h rest =>
    intro n s b
    simp only [CTNode.updateAt]
    rw [CTNode.update_count]
    simp [CTNode.count_withChild]

theorem CTNode.visits_updateAt (hs : List Bool) (n : CTNode) (s : Bool) :
    (n.updateAt hs s).visits = n.visits + 1 := by
  rw [CTNode.visits, CTNode.visits, CTNode.count_updateAt, CTNode.count_updateAt]
  cases s <;> simp <;> ring

theorem CTNode.log_kt_update (n : CTNode) (s : Bool) :
    (n.update s).log_kt = n.log_kt + n.logKTMultiplier s :=
  CTNode.update_log_kt n s

/-- The log KT estimate stays the closed-form KT value when a node with
nonnegative counts is updated. -/
theorem CTNode.ktLog_step (n : CTNode) (s : Bool)
    (h0 : 0 ≤ n.count false) (h1 : 0 ≤ n.count true)
    (hkt : n.log_kt = ktLog (n.count false).toNat (n.count true).toNat) :
    n.log_kt + n.logKTMultiplier s
      = ktLog ((n.update s).count false).toNat ((n.update s).count true).toNat := by
  have hf : ((n.count false).toNat : ℝ) = (n.count false : ℝ) := by
    exact_mod_cast Int.toNat_of_nonneg h0
  have ht : ((n.count true).toNat : ℝ) = (n.count true : ℝ) := by
    exact_mod_cast Int.toNat_of_nonneg h1
  have hv : (n.visits : ℝ) = (n.count false : ℝ) + (n.count true : ℝ) := by
    rw [CTNode.visits]; push_cast; ring
  cases s
  · have hcs : (n.update false).count false = n.count false + 1 := by
      rw [CTNode.update_count]; simp
    have hco : (n.update false).count true = n.count true := by
      rw [CTNode.update_count]; simp
    have htn : (n.count false + 1).toNat = (n.count false).toNat + 1 := by omega
    rw [hcs, hco, htn, ktLog_succ_left, ← hkt, CTNode.logKTMultiplier, hf, ht, hv]
  · have hcs : (n.update true).count true = n.count true + 1 := by
      rw [CTNode.update_count]; simp
    have hco : (n.update true).count false = n.count false := by
      rw [CTNode.update_count]; simp
    have htn : (n.count true + 1).toNat = (n.count true).toNat + 1 := by omega
    rw [hcs, hco, htn, ktLog_succ_right, ← hkt, CTNode.logKTMultiplier, hf, ht, hv]

@[simp] theorem optVisits_none : optVisits none = 0 := rfl

@[simp] theorem optVisits_some (c : CTNode) : optVisits (some c) = c.visits := rfl

theorem optVisits_getD (o : Option CTNode) :
    (o.getD CTNode.init).visits = optVisits o := by
  cases o <;> simp [optVisits, CTNode.init, CTNode.visits]

theorem CTNode.Inv_update_zero (n : CTNode) (s : Bool) (hInv : CTNode.Inv 0 n) :
    CTNode.Inv 0 (n.update s) := by
  obtain ⟨h0, h1, hkt, hcf, hct⟩ := hInv
  refine ⟨?_, ?_, ?_, ?_, ?_⟩
  · rw [CTNode.update_count]; split <;> omega
  · rw [CTNode.update_count]; split <;> omega
  · rw [CTNode.log_kt_update]
    exact CTNode.ktLog_step n s h0 h1 hkt
  · rw [CTNode.update_child]; exact hcf
  · rw [CTNode.update_child]; exact hct

theorem CTNode.Inv_updateAt : ∀ (hs : List Bool) (n : CTNode) (s : Bool),
    CTNode.Inv hs.length n → CTNode.Inv hs.length (n.updateAt hs s) := by
  intro hs
  induction hs with
  | nil =>
    intro n s hInv
    simpa only [CTNode.updateAt] using CTNode.Inv_update_zero n s hInv
  | cons h rest ih =>
    intro n s hInv
    simp only [List.length_cons] at hInv ⊢
    obtain ⟨h0, h1, hkt, hvs, hf, ht⟩ := hInv
    have hc0Inv : CTNode.Inv rest.length ((n.child h).getD CTNode.init) := by
      cases hch : n.child h with
      | none => simpa [hch] using CTNode.Inv_init rest.length
      | some c =>
        cases h
        · rw [hch] at hf; simpa [hch] using hf
        · rw [hch] at ht; simpa [hch] using ht
    have hrec := ih ((n.child h).getD CTNode.init) s hc0Inv
    simp only [CTNode.updateAt]
    set c1 := ((n.child h).getD CTNode.init).updateAt rest s with hc1
    set m := n.withChild h (some c1) with hm
    have hmc : ∀ b, m.count b = n.count b := by
      intro b; rw [hm]; simp
    have hmv : m.visits = n.visits := by
      rw [CTNode.visits, CTNode.visits, hmc, hmc]
    refine ⟨?_, ?_, ?_, ?_, ?_, ?_⟩
    · rw [CTNode.update_count]; rw [hmc] at *; split <;> omega
    · rw [CTNode.update_count]; rw [hmc] at *; split <;> omega
    · rw [CTNode.log_kt_update]
      have hmkt : m.log_kt = ktLog (m.count false).toNat (m.count true).toNat := by
        rw [hm]; simp only [CTNode.log_kt_withChild, CTNode.count_withChild]; exact hkt
      have := CTNode.ktLog_step m s (by rw [hmc]; exact h0) (by rw [hmc]; exact h1) hmkt
      rw [this]
    · -- visit counts still sum over the children
      have hcv : c1.visits = optVisits (n.child h) + 1 := by
        rw [hc1, CTNode.visits_updateAt, optVisits_getD]
      rw [CTNode.visits_update, CTNode.update_child, CTNode.update_child, hmv, hvs]
      cases h
      · have hoff : (n.withChild false (some c1)).child true = n.child true := by
          simp [CTNode.child_withChild]
        rw [hm, CTNode.child_withChild_same, hoff, optVisits_some, hcv]
        ring
      · have hoff : (n.withChild true (some c1)).child false = n.child false := by
          simp [CTNode.child_withChild]
        rw [hm, CTNode.child_withChild_same, hoff, optVisits_some, hcv]
        ring
    · rw [CTNode.update_child, hm]
      cases h
      · simpa using hrec
      · have hoff : (n.withChild true (some c1)).child false = n.child false := by
          simp [CTNode.child_withChild]
        rw [hoff]
        exact hf
    · rw [CTNode.update_child, hm]
      cases h
      · have hoff : (n.withChild false (some c1)).child true = n.child true := by
          simp [CTNode.child_withChild]
        rw [hoff]
        exact ht
      · simpa using hrec

/-- Tree-level preservation: one `ContextTree::update` keeps the invariants. -/
theorem ContextTree.Inv_update (t : ContextTree) (s : Bool)
    (hInv : CTNode.Inv t.depth t.root) (hWF : t.root.WFlp) :
    CTNode.Inv (t.update s).depth (t.update s).root ∧ (t.update s).root.WFlp := by
  rw [ContextTree.update]
  split
  · rename_i hlen
    have htk : (t.history.take t.depth).length = t.depth := by
      rw [List.length_take]; omega
    constructor
    · have hr := CTNode.Inv_updateAt (t.history.take t.depth) t.root s (by rw [htk]; exact hInv)
      rw [htk] at hr
      exact hr
    · exact CTNode.WFlp_updateAt (t.history.take t.depth) t.root s hWF
  · exact ⟨hInv, hWF⟩

/-! ### Characterization of `CTNode::revert` -/

theorem CTNode.revert_count (n : CTNode) (s b : Bool) :
    (n.revert s).count b = if b = s then n.count b - 1 else n.count b := by
  by_cases h : b = s <;>
    simp [CTNode.revert, CTNode.updateLogProbability, CTNode.count_withCount, h] <;>
    split <;>
    simp [CTNode.count_withCount, h]

theorem CTNode.revert_log_kt (n : CTNode) (s : Bool) :
    (n.revert s).log_kt
      = n.log_kt - (n.withCount s (n.count s - 1)).logKTMultiplier s := by
  simp only [CTNode.revert, CTNode.updateLogProbability]
  split <;>
    simp [CTNode.logKTMultiplier, CTNode.visits, CTNode.count_withCount]

theorem CTNode.revert_child (n : CTNode) (s b : Bool) :
    (n.revert s).child b
      = if b = s ∧ optVisitsZero (n.child s) = true then none else n.child b := by
  simp only [CTNode.revert, CTNode.updateLogProbability]
  have hc : (n.withCount s (n.count s - 1)).child s = n.child s := by simp
  rw [hc]
  split
  · rename_i hdel
    by_cases h : b = s
    · subst h
      simp [hdel, CTNode.child_withChild]
    · simp [CTNode.child_withChild, h, hdel]
  · rename_i hdel
    by_cases h : b = s <;> simp [h, hdel]

theorem CTNode.lp_revert_consistent (n : CTNode) (s : Bool) :
    (n.revert s).log_probability = (n.revert s).lpFormula := by
  simp only [CTNode.revert, CTNode.updateLogProbability]
  split <;> simp [CTNode.lpFormula_withLogProbability]

/-! ### cval lemmas -/

@[simp] theorem CTNode.cval_nil (n : CTNode) :
    n.cval [] = (n.count false, n.count true, n.log_kt) := by
  rw [CTNode.cval]

theorem CTNode.cval_cons_none {n : CTNode} {b : Bool} (h : n.child b = none)
    (p : List Bool) : n.cval (b :: p) = (0, 0, 0) := by
  rw [CTNode.cval, h]

theorem CTNode.cval_cons_some {n : CTNode} {b : Bool} {c : CTNode}
    (h : n.child b = some c) (p : List Bool) : n.cval (b :: p) = c.cval p := by
  rw [CTNode.cval, h]

theorem CTNode.cval_init (p : List Bool) : CTNode.init.cval p = (0, 0, 0) := by
  cases p with
  | nil => simp [CTNode.init]
  | cons b rest => exact CTNode.cval_cons_none (by cases b <;> rfl) rest

theorem CTNode.Inv_visits_nonneg {k : ℕ} {n : CTNode} (h : CTNode.Inv k n) :
    0 ≤ n.visits := by
  have h0 := CTNode.Inv_count_nonneg h false
  have h1 := CTNode.Inv_count_nonneg h true
  rw [CTNode.visits]; omega

/-- A node with an invariant and zero visits reads as all zeros along every
path: its whole subtree is trivial. -/
theorem cval_zero_of_visits_zero : ∀ (k : ℕ) (n : CTNode),
    CTNode.Inv k n → n.visits = 0 → ∀ p, n.cval p = (0, 0, 0) := by
  intro k
  induction k with
  | zero =>
    intro n hInv hv p
    have h0 := CTNode.Inv_count_nonneg hInv false
    have h1 := CTNode.Inv_count_nonneg hInv true
    rw [CTNode.visits] at hv
    have hzf : n.count false = 0 := by omega
    have hzt : n.count true = 0 := by omega
    cases p with
    | nil =>
      rw [CTNode.cval_nil, hzf, hzt, CTNode.Inv_log_kt hInv, hzf, hzt]
      simpa using ktLog_zero
    | cons b rest => exact CTNode.cval_cons_none (CTNode.Inv_zero_child hInv b) rest
  | succ k ih =>
    intro n hInv hv p
    have h0 := CTNode.Inv_count_nonneg hInv false
    have h1 := CTNode.Inv_count_nonneg hInv true
    rw [CTNode.visits] at hv
    have hzf : n.count false = 0 := by omega
    have hzt : n.count true = 0 := by omega
    cases p with
    | nil =>
      rw [CTNode.cval_nil, hzf, hzt, CTNode.Inv_log_kt hInv, hzf, hzt]
      simpa using ktLog_zero
    | cons b rest =>
      cases hch : n.child b with
      | none => exact CTNode.cval_cons_none hch rest
      | some c =>
        rw [CTNode.cval_cons_some hch rest]
        have hcInv := CTNode.Inv_child hInv hch
        have hsum := CTNode.Inv_visits_sum hInv
        have hvz : n.visits = 0 := by rw [CTNode.visits]; omega
        rw [hvz] at hsum
        have hcv0 : 0 ≤ optVisits (n.child false) := by
          cases hcf : n.child false with
          | none => simp
          | some cf =>
            simp only [optVisits_some]
            exact CTNode.Inv_visits_nonneg (CTNode.Inv_child hInv hcf)
        have hcv1 : 0 ≤ optVisits (n.child true) := by
          cases hct : n.child true with
          | none => simp
          | some ct =>
            simp only [optVisits_some]
            exact CTNode.Inv_visits_nonneg (CTNode.Inv_child hInv hct)
        have hcz : c.visits = 0 := by
          cases b
          · rw [hch] at hsum hcv0; simp only [optVisits_some] at hsum hcv0; omega
          · rw [hch] at hsum hcv1; simp only [optVisits_some] at hsum hcv1; omega
        exact ih c hcInv hcz rest

theorem CTNode.cval_cons_child_eq {m n : CTNode} {b : Bool}
    (h : m.child b = n.child b) (p : List Bool) :
    m.cval (b :: p) = n.cval (b :: p) := by
  cases hc : n.child b with
  | none => rw [CTNode.cval_cons_none (h.trans hc), CTNode.cval_cons_none hc]
  | some c => rw [CTNode.cval_cons_some (h.trans hc), CTNode.cval_cons_some hc]

theorem CTNode.logKTMultiplier_congr {m n : CTNode}
    (hf : m.count false = n.count false) (ht : m.count true = n.count true)
    (s : Bool) : m.logKTMultiplier s = n.logKTMultiplier s := by
  cases s <;> simp [CTNode.logKTMultiplier, CTNode.visits, hf, ht]

theorem CTNode.updateAt_log_kt : ∀ (hs : List Bool) (n : CTNode) (s : Bool),
    (n.updateAt hs s).log_kt = n.log_kt + n.logKTMultiplier s := by
  intro hs n s
  cases hs with
  | nil => exact CTNode.update_log_kt n s
  | cons h rest =>
    simp only [CTNode.updateAt]
    rw [CTNode.update_log_kt]
    simp

theorem CTNode.updateAt_cons_child (h : Bool) (rest : List Bool) (n : CTNode)
    (s b : Bool) :
    (n.updateAt (h :: rest) s).child b
      = if b = h then some (((n.child h).getD CTNode.init).updateAt rest s)
        else n.child b := by
  simp only [CTNode.updateAt]
  rw [CTNode.update_child, CTNode.child_withChild]

/-- The heart of the update/revert analysis: reverting along the same context
path that an update walked restores the observable data (counts and log KT
estimates along every path) of the original tree.  The reverted tree `a` is
only required to be observably equal to the updated tree, because stub
subtrees (left behind by earlier revert steps) may differ structurally. -/
theorem revertAt_cval : ∀ (hs : List Bool) (t : CTNode) (s : Bool) (a : CTNode),
    CTNode.Inv hs.length t →
    (∀ p, a.cval p = (t.updateAt hs s).cval p) →
    ∀ p, (a.revertAt hs s).cval p = t.cval p := by
  intro hs
  induction hs with
  | nil =>
    intro t s a hInv heq p
    simp only [List.length_nil] at hInv
    have h00 := heq []
    simp only [CTNode.cval_nil, CTNode.updateAt, Prod.mk.injEq] at h00
    obtain ⟨hacf, hact, halkt⟩ := h00
    rw [CTNode.update_count] at hacf
    rw [CTNode.update_count] at hact
    rw [CTNode.update_log_kt] at halkt
    simp only [CTNode.revertAt]
    have hacnt : ∀ b, a.count b = if b = s then t.count b + 1 else t.count b := by
      intro b
      cases b <;> cases s <;> simp_all
    cases p with
    | nil =>
      simp only [CTNode.cval_nil, Prod.mk.injEq]
      refine ⟨?_, ?_, ?_⟩
      · rw [CTNode.revert_count, hacnt]
        cases s <;> simp
      · rw [CTNode.revert_count, hacnt]
        cases s <;> simp
      · rw [CTNode.revert_log_kt, halkt]
        have hmult : (a.withCount s (a.count s - 1)).logKTMultiplier s
            = t.logKTMultiplier s := by
          apply CTNode.logKTMultiplier_congr <;>
            rw [CTNode.count_withCount] <;> rw [hacnt, hacnt] <;>
            cases s <;> simp
        rw [hmult]
        ring
    | cons b q =>
      have htb : t.child b = none := CTNode.Inv_zero_child hInv b
      rw [CTNode.cval_cons_none htb]
      have hub : (t.update s).child b = none := by
        rw [CTNode.update_child]; exact htb
      by_cases hbs : b = s
      · subst hbs
        cases hdel : optVisitsZero (a.child b) with
        | true =>
          have hrb : (a.revert b).child b = none := by
            rw [CTNode.revert_child]
            simp [hdel]
          rw [CTNode.cval_cons_none hrb]
        | false =>
          cases hach : a.child b with
          | none =>
            have hrb : (a.revert b).child b = none := by
              rw [CTNode.revert_child, hach]
              split <;> rfl
            rw [CTNode.cval_cons_none hrb]
          | some x =>
            exfalso
            have hx := heq [b]
            rw [CTNode.cval_cons_some hach, CTNode.updateAt,
              CTNode.cval_cons_none hub] at hx
            simp only [CTNode.cval_nil, Prod.mk.injEq] at hx
            rw [hach] at hdel
            simp only [optVisitsZero, beq_eq_false_iff_ne] at hdel
            exact hdel (by rw [CTNode.visits, hx.1, hx.2.1]; ring)
      · have hrb : (a.revert s).child b = a.child b := by
          rw [CTNode.revert_child]
          simp [hbs]
        rw [CTNode.cval_cons_child_eq hrb q]
        have := heq (b :: q)
        rw [CTNode.updateAt, CTNode.cval_cons_none hub] at this
        rw [this]
  | cons h rest ih =>
    intro t s a hInv heq p
    simp only [List.length_cons] at hInv
    -- data about the updated tree
    have hc0Inv : CTNode.Inv rest.length ((t.child h).getD CTNode.init) := by
      cases hch : t.child h with
      | none => simpa [hch] using CTNode.Inv_init rest.length
      | some c =>
        cases h
        · have := (CTNode.Inv_child hInv hch); simpa [hch] using this
        · have := (CTNode.Inv_child hInv hch); simpa [hch] using this
    have hcu_cf : (((t.child h).getD CTNode.init).updateAt rest s).count s
        = ((t.child h).getD CTNode.init).count s + 1 := by
      rw [CTNode.count_updateAt]; simp
    have hc0nn : 0 ≤ ((t.child h).getD CTNode.init).count s :=
      CTNode.Inv_count_nonneg hc0Inv s
    -- root-level observable data of a
    have h00 := heq []
    simp only [CTNode.cval_nil, CTNode.updateAt, Prod.mk.injEq] at h00
    rw [CTNode.update_count, CTNode.update_count, CTNode.update_log_kt] at h00
    simp only [CTNode.count_withChild, CTNode.log_kt_withChild,
      CTNode.logKTMultiplier_withChild] at h00
    obtain ⟨hacf, hact, halkt⟩ := h00
    have hacnt : ∀ b, a.count b = if b = s then t.count b + 1 else t.count b := by
      intro b
      cases b <;> cases s <;> simp_all
    -- the path child of a exists and matches the updated child observably
    have huch : ∀ b, (t.updateAt (h :: rest) s).child b
        = if b = h then some (((t.child h).getD CTNode.init).updateAt rest s)
          else t.child b := fun b => CTNode.updateAt_cons_child h rest t s b
    cases hach : a.child h with
    | none =>
      exfalso
      have hx := heq [h]
      rw [CTNode.cval_cons_none hach,
        CTNode.cval_cons_some ((huch h).trans (if_pos rfl)) []] at hx
      simp only [CTNode.cval_nil, Prod.mk.injEq] at hx
      cases s <;> omega
    | some a1 =>
      have ha1 : ∀ p, a1.cval p
          = (((t.child h).getD CTNode.init).updateAt rest s).cval p := by
        intro p
        have := heq (h :: p)
        rw [CTNode.cval_cons_some hach,
          CTNode.cval_cons_some ((huch h).trans (if_pos rfl))] at this
        exact this
      have ha2 := ih ((t.child h).getD CTNode.init) s a1 hc0Inv ha1
      -- the recursive revert result
      simp only [CTNode.revertAt, hach, Option.getD_some]
      set a2 := a1.revertAt rest s with ha2def
      set A := a.withChild h (some a2) with hA
      have hAcount : ∀ b, A.count b = a.count b := by intro b; rw [hA]; simp
      have hAchild_h : A.child h = some a2 := by rw [hA]; simp
      have hAchild_o : ∀ b, b ≠ h → A.child b = a.child b := by
        intro b hb; rw [hA, CTNode.child_withChild, if_neg hb]
      have ha2visits : a2.visits = optVisits (t.child h) := by
        have := ha2 []
        simp only [CTNode.cval_nil, Prod.mk.injEq] at this
        rw [CTNode.visits, this.1, this.2.1, ← CTNode.visits, optVisits_getD]
      cases p with
      | nil =>
        simp only [CTNode.cval_nil, Prod.mk.injEq]
        refine ⟨?_, ?_, ?_⟩
        · rw [CTNode.revert_count, hAcount, hacnt]
          cases s <;> simp
        · rw [CTNode.revert_count, hAcount, hacnt]
          cases s <;> simp
        · rw [CTNode.revert_log_kt]
          have hmult : (A.withCount s (A.count s - 1)).logKTMultiplier s
              = t.logKTMultiplier s := by
            apply CTNode.logKTMultiplier_congr <;>
              rw [CTNode.count_withCount] <;> rw [hAcount, hAcount] <;>
              rw [hacnt, hacnt] <;> cases s <;> simp
          rw [hmult, hA]
          simp only [CTNode.log_kt_withChild]
          rw [halkt]
          ring
      | cons b q =>
        by_cases hbh : b = h
        · subst hbh
          by_cases hbs : b = s
          · -- the reverted symbol side is the path side
            subst hbs
            cases hdel : optVisitsZero (A.child b) with
            | true =>
              have hrb : (A.revert b).child b = none := by
                rw [CTNode.revert_child]; simp [hdel]
              rw [CTNode.cval_cons_none hrb]
              rw [hAchild_h] at hdel
              simp only [optVisitsZero, beq_iff_eq] at hdel
              rw [hdel] at ha2visits
              cases hch : t.child b with
              | none => rw [CTNode.cval_cons_none hch]
              | some c =>
                rw [CTNode.cval_cons_some hch]
                rw [hch] at ha2visits
                simp only [optVisits_some] at ha2visits
                have hcInv : CTNode.Inv rest.length c := CTNode.Inv_child hInv hch
                exact (cval_zero_of_visits_zero rest.length c hcInv
                  ha2visits.symm q).symm
            | false =>
              have hrb : (A.revert b).child b = A.child b := by
                rw [CTNode.revert_child]; simp [hdel]
              rw [CTNode.cval_cons_child_eq hrb q, CTNode.cval_cons_some hAchild_h]
              rw [ha2]
              cases hch : t.child b with
              | none =>
                rw [CTNode.cval_cons_none hch]
                simp [CTNode.cval_init]
              | some c =>
                rw [CTNode.cval_cons_some hch]
                simp
          · -- path side, but a different symbol: never deleted
            have hrb : (A.revert s).child b = A.child b := by
              rw [CTNode.revert_child]; simp [hbs]
            rw [CTNode.cval_cons_child_eq hrb q, CTNode.cval_cons_some hAchild_h]
            rw [ha2]
            cases hch : t.child b with
            | none =>
              rw [CTNode.cval_cons_none hch]
              simp [CTNode.cval_init]
            | some c =>
              rw [CTNode.cval_cons_some hch]
              simp
        · -- off the path: the child of a is observably the child of t
          have hoff : ∀ q, a.cval (b :: q) = t.cval (b :: q) := by
            intro q
            have := heq (b :: q)
            rw [CTNode.cval_cons_child_eq ((huch b).trans (if_neg hbh)) q] at this
            exact this
          by_cases hbs : b = s
          · subst hbs
            cases hdel : optVisitsZero (A.child b) with
            | true =>
              have hrb : (A.revert b).child b = none := by
                rw [CTNode.revert_child]; simp [hdel]
              rw [CTNode.cval_cons_none hrb]
              rw [hAchild_o b hbh] at hdel
              cases hach2 : a.child b with
              | none => rw [hach2] at hdel; simp [optVisitsZero] at hdel
              | some x =>
                rw [hach2] at hdel
                simp only [optVisitsZero, beq_iff_eq] at hdel
                cases hch : t.child b with
                | none => rw [CTNode.cval_cons_none hch]
                | some y =>
                  rw [CTNode.cval_cons_some hch]
                  have hyx : ∀ q, y.cval q = x.cval q := by
                    intro q
                    have h1 := hoff q
                    rw [CTNode.cval_cons_some hach2, CTNode.cval_cons_some hch] at h1
                    exact h1.symm
                  have hyv : y.visits = 0 := by
                    have := hyx []
                    simp only [CTNode.cval_nil, Prod.mk.injEq] at this
                    rw [CTNode.visits, this.1, this.2.1, ← CTNode.visits, hdel]
                  have hyInv : CTNode.Inv rest.length y := CTNode.Inv_child hInv hch
                  exact (cval_zero_of_visits_zero rest.length y hyInv hyv q).symm
            | false =>
              have hrb : (A.revert b).child b = A.child b := by
                rw [CTNode.revert_child]; simp [hdel]
              rw [CTNode.cval_cons_child_eq hrb q,
                CTNode.cval_cons_child_eq (hAchild_o b hbh) q]
              exact hoff q
          · -- neither the path side nor the reverted symbol side
            have hrb : (A.revert s).child b = A.child b := by
              rw [CTNode.revert_child]; simp [hbs]
            rw [CTNode.cval_cons_child_eq hrb q,
              CTNode.cval_cons_child_eq (hAchild_o b hbh) q]
            exact hoff q

/-! ### Preservation of probability consistency by reverts -/

theorem CTNode.WFlp_revert_of_children (n : CTNode) (s : Bool)
    (hc : ∀ b c, n.child b = some c → c.WFlp) : (n.revert s).WFlp := by
  refine CTNode.WFlp_of _ (CTNode.lp_revert_consistent n s) ?_
  intro b c hb
  rw [CTNode.revert_child] at hb
  by_cases hcond : b = s ∧ optVisitsZero (n.child s) = true
  · rw [if_pos hcond] at hb; cases hb
  · rw [if_neg hcond] at hb; exact hc b c hb

theorem CTNode.WFlp_revertAt : ∀ (hs : List Bool) (n : CTNode) (s : Bool),
    n.WFlp → (n.revertAt hs s).WFlp := by
  intro hs
  induction hs with
  | nil =>
    intro n s hWF
    exact CTNode.WFlp_revert_of_children n s fun b c hb => CTNode.WFlp_child hWF hb
  | cons h rest ih =>
    intro n s hWF
    have hc0WF : ((n.child h).getD CTNode.init).WFlp := by
      cases hch : n.child h with
      | none => simpa [hch] using CTNode.WFlp_init
      | some c => simpa [hch] using CTNode.WFlp_child hWF hch
    simp only [CTNode.revertAt]
    apply CTNode.WFlp_revert_of_children
    intro b c hb
    rw [CTNode.child_withChild] at hb
    by_cases hbh : b = h
    · simp only [hbh, if_pos rfl] at hb
      cases hb
      exact ih _ s hc0WF
    · simp only [if_neg hbh] at hb
      exact CTNode.WFlp_child hWF hb

/-- A node that reads as zero along every path and has consistent cached
probabilities has weighted log probability zero. -/
theorem lp_zero_of_cval_WFlp : ∀ n : CTNode,
    (∀ p, n.cval p = (0, 0, 0)) → n.WFlp → n.log_probability = 0
  | .mk lk lp c0 c1 d0 d1, hz, hwf => by
    have h0 := hz []
    simp only [CTNode.cval_nil, CTNode.count_mk_false, CTNode.count_mk_true,
      CTNode.log_kt_mk, Prod.mk.injEq] at h0
    have hexp := exp_lp_of_WFlp hwf
    have hzf : ∀ c : CTNode, d0 = some c → c.log_probability = 0 := by
      intro c hc
      subst hc
      exact lp_zero_of_cval_WFlp c
        (fun p => by simpa using hz (false :: p))
        (CTNode.WFlp_child hwf (show (CTNode.mk lk lp c0 c1 (some c) d1).child false = some c from rfl))
    have hzt : ∀ c : CTNode, d1 = some c → c.log_probability = 0 := by
      intro c hc
      subst hc
      exact lp_zero_of_cval_WFlp c
        (fun p => by simpa using hz (true :: p))
        (CTNode.WFlp_child hwf (show (CTNode.mk lk lp c0 c1 d0 (some c)).child true = some c from rfl))
    rw [← Real.exp_eq_one_iff]
    rw [hexp]
    cases d0 with
    | none =>
      cases d1 with
      | none =>
        simp [CTNode.isLeafNode, h0.2.2]
      | some c =>
        rw [if_neg (by simp [CTNode.isLeafNode])]
        simp [childLogProb, h0.2.2, hzt c rfl]
    | some b =>
      cases d1 with
      | none =>
        rw [if_neg (by simp [CTNode.isLeafNode])]
        simp [childLogProb, h0.2.2, hzf b rfl]
      | some c =>
        rw [if_neg (by simp [CTNode.isLeafNode])]
        simp [childLogProb, h0.2.2, hzf b rfl, hzt c rfl]

/-! ### Tree-level bookkeeping lemmas -/

theorem ContextTree.update_depth (t : ContextTree) (s : Bool) :
    (t.update s).depth = t.depth := by
  rw [ContextTree.update]; split <;> rfl

theorem ContextTree.update_history (t : ContextTree) (s : Bool) :
    (t.update s).history = s :: t.history := by
  rw [ContextTree.update]; split <;> rfl

theorem ContextTree.updateList_cons (t : ContextTree) (s : Bool) (ss : List Bool) :
    t.updateList (s :: ss) = (t.update s).updateList ss := rfl

theorem ContextTree.Inv_update_only (t : ContextTree) (s : Bool)
    (hInv : CTNode.Inv t.depth t.root) :
    CTNode.Inv (t.update s).depth (t.update s).root := by
  rw [ContextTree.update]
  split
  · rename_i hlen
    have htk : (t.history.take t.depth).length = t.depth := by
      rw [List.length_take]; omega
    have hr := CTNode.Inv_updateAt (t.history.take t.depth) t.root s (by rw [htk]; exact hInv)
    rw [htk] at hr
    exact hr
  · exact hInv

theorem ContextTree.WFlp_update_only (t : ContextTree) (s : Bool)
    (hWF : t.root.WFlp) : (t.update s).root.WFlp := by
  rw [ContextTree.update]
  split
  · exact CTNode.WFlp_updateAt _ t.root s hWF
  · exact hWF

theorem ContextTree.Inv_updateList : ∀ (syms : List Bool) (t : ContextTree),
    CTNode.Inv t.depth t.root →
    CTNode.Inv (t.updateList syms).depth (t.updateList syms).root := by
  intro syms
  induction syms with
  | nil => intro t h; exact h
  | cons s ss ih =>
    intro t h
    rw [ContextTree.updateList_cons]
    exact ih (t.update s) (ContextTree.Inv_update_only t s h)

theorem ContextTree.WFlp_updateList : ∀ (syms : List Bool) (t : ContextTree),
    t.root.WFlp → (t.updateList syms).root.WFlp := by
  intro syms
  induction syms with
  | nil => intro t h; exact h
  | cons s ss ih =>
    intro t h
    rw [ContextTree.updateList_cons]
    exact ih (t.update s) (ContextTree.WFlp_update_only t s h)

theorem ContextTree.WFlp_revert (t : ContextTree) (hWF : t.root.WFlp) :
    t.revert.root.WFlp := by
  rcases t with ⟨r, d, hist⟩
  cases hist with
  | nil => exact hWF
  | cons s rest =>
    simp only [ContextTree.revert]
    split
    · exact CTNode.WFlp_revertAt _ r s hWF
    · exact hWF

theorem ContextTree.WFlp_revertN : ∀ (k : ℕ) (t : ContextTree),
    t.root.WFlp → (t.revertN k).root.WFlp := by
  intro k
  induction k with
  | zero => intro t h; exact h
  | succ k ih =>
    intro t h
    exact ih t.revert (ContextTree.WFlp_revert t h)

theorem ContextTree.revertN_succ : ∀ (k : ℕ) (t : ContextTree),
    t.revertN (k + 1) = (t.revertN k).revert := by
  intro k
  induction k with
  | zero => intro t; rfl
  | succ k ih =>
    intro t
    show t.revert.revertN (k + 1) = _
    rw [ih t.revert]
    rfl

theorem CTEq_refl (t : ContextTree) : CTEq t t := ⟨rfl, rfl, fun _ => rfl⟩

/-- Reverting any tree that is observably equal to `t.update s` yields a tree
observably equal to `t`: the tree-level form of `revertAt_cval`. -/
theorem revert_CTEq (t : ContextTree) (s : Bool) (Y : ContextTree)
    (hInv : CTNode.Inv t.depth t.root)
    (heq : CTEq Y (t.update s)) : CTEq Y.revert t := by
  obtain ⟨hd, hh, hcv⟩ := heq
  rw [ContextTree.update_depth] at hd
  rw [ContextTree.update_history] at hh
  rcases Y with ⟨yr, yd, yh⟩
  change yd = t.depth at hd
  change yh = s :: t.history at hh
  subst hd
  subst hh
  simp only [ContextTree.revert]
  by_cases hlen : t.depth ≤ t.history.length
  · rw [if_pos hlen]
    refine ⟨rfl, rfl, ?_⟩
    intro p
    have htk : (t.history.take t.depth).length = t.depth := by
      rw [List.length_take]; omega
    have hcv2 : ∀ p, yr.cval p
        = (t.root.updateAt (t.history.take t.depth) s).cval p := by
      intro p
      have := hcv p
      rw [ContextTree.update, if_pos hlen] at this
      exact this
    exact revertAt_cval (t.history.take t.depth) t.root s yr
      (by rw [htk]; exact hInv) hcv2 p
  · rw [if_neg hlen]
    refine ⟨rfl, rfl, ?_⟩
    intro p
    have := hcv p
    rw [ContextTree.update, if_neg hlen] at this
    exact this

/-- Applying a list of updates to a tree and then reverting them all restores
the observable state of the tree (counts and log KT data along every path,
history, and depth). -/
theorem updateList_revertN_CTEq : ∀ (syms : List Bool) (t : ContextTree),
    CTNode.Inv t.depth t.root →
    CTEq ((t.updateList syms).revertN syms.length) t := by
  intro syms
  induction syms with
  | nil => intro t _; exact CTEq_refl t
  | cons s ss ih =>
    intro t hInv
    rw [ContextTree.updateList_cons, List.length_cons, ContextTree.revertN_succ]
    exact revert_CTEq t s _ hInv (ih (t.update s) (ContextTree.Inv_update_only t s hInv))

/-! ### C1: update/revert round trip -/

theorem CTNode.size_eq (n : CTNode) :
    n.size = 1 + (match n.child false with | none => 0 | some c => c.size)
      + (match n.child true with | none => 0 | some c => c.size) := by
  cases n
  rw [CTNode.size.eq_def]
  rfl

@[simp] theorem CTNode.size_withLogKt (n : CTNode) (x : ℝ) :
    (n.withLogKt x).size = n.size := by
  rw [CTNode.size_eq, CTNode.size_eq]
  simp

@[simp] theorem CTNode.size_withLogProbability (n : CTNode) (x : ℝ) :
    (n.withLogProbability x).size = n.size := by
  rw [CTNode.size_eq, CTNode.size_eq]
  simp

@[simp] theorem CTNode.size_withCount (n : CTNode) (s : Bool) (v : ℤ) :
    (n.withCount s v).size = n.size := by
  rw [CTNode.size_eq, CTNode.size_eq]
  simp

theorem CTNode.size_update (n : CTNode) (s : Bool) :
    (n.update s).size = n.size := by
  simp [CTNode.update, CTNode.updateLogProbability]

/-- C1 (amended), log-probability part: for every depth `D ≥ 1` and every bit
sequence of length `n ≥ D`, applying the `n` updates to a fresh tree and
then reverting all of them restores `log_block_probability` exactly (in the
real-number model), in particular to within `1e-12`. -/
theorem updateList_revertN_logBlock (D : ℕ) (syms : List Bool)
    (hD : 1 ≤ D) (hn : D ≤ syms.length) :
    (((ContextTree.init D).updateList syms).revertN syms.length).logBlockProbability
        = (ContextTree.init D).logBlockProbability
      ∧ |(((ContextTree.init D).updateList syms).revertN syms.length).logBlockProbability
          - (ContextTree.init D).logBlockProbability| ≤ 1e-12 := by
  have hEq := updateList_revertN_CTEq syms (ContextTree.init D) (CTNode.Inv_init D)
  obtain ⟨-, -, hcv⟩ := hEq
  have hz : ∀ p, (((ContextTree.init D).updateList syms).revertN syms.length).root.cval p
      = (0, 0, 0) := fun p => (hcv p).trans (CTNode.cval_init p)
  have hWF : (((ContextTree.init D).updateList syms).revertN syms.length).root.WFlp :=
    ContextTree.WFlp_revertN syms.length _
      (ContextTree.WFlp_updateList syms _ CTNode.WFlp_init)
  have hlp := lp_zero_of_cval_WFlp _ hz hWF
  constructor
  · rw [ContextTree.logBlockProbability, hlp]
    rfl
  · rw [ContextTree.logBlockProbability, hlp]
    norm_num [ContextTree.init, ContextTree.logBlockProbability]

/-- Witness for C1 (amended) at depth 1 with the sequence `[1]`. -/
theorem updateList_revertN_logBlock_witness :
    (((ContextTree.init 1).updateList [true]).revertN 1).logBlockProbability
        = (ContextTree.init 1).logBlockProbability :=
  (updateList_revertN_logBlock 1 [true] (by norm_num) (by simp)).1

/-- C1 counterexample, node-count part: at depth `D = 1` with the sequence
`0, 1` (so `n = 2 ≥ D`), two updates followed by two reverts leave the tree
with 2 nodes, while the fresh tree had 1: the revert loop only deletes the
zero-visit child on the reverted-symbol side, so the context-path child
created under the other symbol survives as a zero-visit stub.  Hence the
claim that the node count is unchanged is false. -/
theorem updateList_revertN_size_cex :
    (((ContextTree.init 1).updateList [false, true]).revertN 2).size = 2
      ∧ (ContextTree.init 1).size = 1
      ∧ (((ContextTree.init 1).updateList [false, true]).revertN 2).size
          ≠ (ContextTree.init 1).size := by
  have e1 : (ContextTree.init 1).update false = ContextTree.mk CTNode.init 1 [false] := by
    rw [ContextTree.update]
    norm_num [ContextTree.init]
  have e2 : (ContextTree.mk CTNode.init 1 [false]).update true
      = ContextTree.mk (CTNode.init.updateAt [false] true) 1 [true, false] := by
    rw [ContextTree.update]
    norm_num
  have hu_cf : (CTNode.init.updateAt [false] true).child false
      = some (CTNode.init.update true) := by
    rw [CTNode.updateAt_cons_child]
    simp only [if_pos rfl, CTNode.init]
    rfl
  have hu_ct : (CTNode.init.updateAt [false] true).child true = none := by
    rw [CTNode.updateAt_cons_child]
    simp [CTNode.init]
  have e3 : (ContextTree.mk (CTNode.init.updateAt [false] true) 1 [true, false]).revert
      = ContextTree.mk ((CTNode.init.updateAt [false] true).revertAt [false] true) 1
          [false] := by
    simp [ContextTree.revert]
  have e4 : ∀ r : CTNode, (ContextTree.mk r 1 [false]).revert = ContextTree.mk r 1 [] := by
    intro r
    simp [ContextTree.revert]
  -- shape of the reverted root
  have hrA : (CTNode.init.updateAt [false] true).revertAt [false] true
      = (((CTNode.init.updateAt [false] true).withChild false
          (some ((CTNode.init.update true).revert true))).revert true) := by
    simp only [CTNode.revertAt, hu_cf, Option.getD_some]
  have hc2f : ((CTNode.init.update true).revert true).child false = none := by
    rw [CTNode.revert_child]
    simp [CTNode.update_child, CTNode.init]
  have hc2t : ((CTNode.init.update true).revert true).child true = none := by
    rw [CTNode.revert_child]
    simp [CTNode.update_child, CTNode.init]
  have hsz2 : ((CTNode.init.update true).revert true).size = 1 := by
    rw [CTNode.size_eq, hc2f, hc2t]
    rfl
  have hrf : ((CTNode.init.updateAt [false] true).revertAt [false] true).child false
      = some ((CTNode.init.update true).revert true) := by
    rw [hrA, CTNode.revert_child]
    have : ((CTNode.init.updateAt [false] true).withChild false
        (some ((CTNode.init.update true).revert true))).child true = none := by
      rw [CTNode.child_withChild]
      simp [hu_ct]
    rw [this]
    simp [optVisitsZero]
  have hrt : ((CTNode.init.updateAt [false] true).revertAt [false] true).child true
      = none := by
    rw [hrA, CTNode.revert_child]
    have hAt : ((CTNode.init.updateAt [false] true).withChild false
        (some ((CTNode.init.update true).revert true))).child true = none := by
      rw [CTNode.child_withChild]
      simp [hu_ct]
    rw [hAt]
    split <;> rfl
  have hX : (((ContextTree.init 1).updateList [false, true]).revertN 2).size = 2 := by
    show ((((ContextTree.init 1).update false).update true).revert.revert).size = 2
    rw [e1, e2, e3, e4]
    show ((CTNode.init.updateAt [false] true).revertAt [false] true).size = 2
    rw [CTNode.size_eq, hrf, hrt]
    show 1 + ((CTNode.init.update true).revert true).size + 0 = 2
    rw [hsz2]
  refine ⟨hX, rfl, ?_⟩
  rw [hX]
  decide

/-- C9: `ContextTree::revert()` on an empty history returns the tree
completely unchanged (the guard returns before touching history or nodes). -/
theorem revert_empty_history (t : ContextTree) (h : t.history = []) :
    t.revert = t := by
  rcases t with ⟨r, d, hist⟩
  change hist = [] at h
  subst h
  rfl

/-- Witness for C9 on a depth-3 tree with empty history. -/
theorem revert_empty_history_witness :
    (ContextTree.init 3).history = [] ∧ (ContextTree.init 3).revert = ContextTree.init 3 :=
  ⟨rfl, revert_empty_history (ContextTree.init 3) rfl⟩

/-- C8: evaluation of the code at the failing input.  A ghost that has just
detected the player (distance 3, so `findPacman` sets the counter to 5)
keeps the counter at 5 after `moveGhostAndUpdateReward`; the claimed
behaviour is that it decrements to 4.  The statement `*sniff--;`
post-decrements the pointer instead of the pointed-to counter. -/
theorem moveGhostSniff_not_decremented :
    moveGhostSniff 3 5 = 5 ∧ moveGhostSniff 3 5 ≠ 4 := by
  constructor <;> decide

/-! ### C6: model update with an action -/

theorem ContextTree.updateHistoryList_root : ∀ (l : List Bool) (t : ContextTree),
    (t.updateHistoryList l).root = t.root := by
  intro l
  induction l with
  | nil => intro t; rfl
  | cons s ss ih => intro t; exact ih (t.updateHistory s)

theorem ContextTree.updateHistoryList_history : ∀ (l : List Bool) (t : ContextTree),
    (t.updateHistoryList l).history = l.reverse ++ t.history := by
  intro l
  induction l with
  | nil => intro t; simp [ContextTree.updateHistoryList]
  | cons s ss ih =>
    intro t
    show ((t.updateHistory s).updateHistoryList ss).history = _
    rw [ih (t.updateHistory s)]
    simp [ContextTree.updateHistory]

theorem encodeAction_length (cfg : AgentCfg) (a : ℕ) :
    (encodeAction cfg a).length = cfg.actionBits := by
  rw [encodeAction, encode_eq_append]
  simp [encodeBits_length]

/-- C6: when the last update was a percept, `Agent::modelUpdate(action)`
appends exactly `actionBits` symbols to the history, changes no context-tree
node (the whole tree of nodes is untouched: the root, hence every node, its
counts, log KT estimates and log probabilities, is literally unchanged, and
no node is created or destroyed), increments the age by exactly one, and
sets the last-update tag to action. -/
theorem modelUpdateAction_effects (cfg : AgentCfg) (σ : AgentState) (a : ℕ)
    (hlu : σ.lastUpdate = .percept_update) :
    (Agent.modelUpdateAction cfg σ a).ct.root = σ.ct.root
      ∧ (Agent.modelUpdateAction cfg σ a).ct.historySize
          = σ.ct.historySize + cfg.actionBits
      ∧ (Agent.modelUpdateAction cfg σ a).timeCycle = σ.timeCycle + 1
      ∧ (Agent.modelUpdateAction cfg σ a).lastUpdate = .action_update := by
  refine ⟨?_, ?_, rfl, rfl⟩
  · exact ContextTree.updateHistoryList_root _ _
  · show ((σ.ct.updateHistoryList (encodeAction cfg a)).history).length = _
    rw [ContextTree.updateHistoryList_history]
    simp [encodeAction_length, ContextTree.historySize]
    omega

/-- Witness for C6 on a small concrete agent. -/
theorem modelUpdateAction_effects_witness :
    (Agent.modelUpdateAction ⟨2, 1, 1, 3, 1, 5, 10⟩
        ⟨ContextTree.init 2, 0, 0, .percept_update⟩ 1).ct.root
      = (⟨ContextTree.init 2, 0, 0, .percept_update⟩ : AgentState).ct.root
    ∧ (Agent.modelUpdateAction ⟨2, 1, 1, 3, 1, 5, 10⟩
        ⟨ContextTree.init 2, 0, 0, .percept_update⟩ 1).ct.historySize
      = (⟨ContextTree.init 2, 0, 0, .percept_update⟩ : AgentState).ct.historySize + 2
    ∧ (Agent.modelUpdateAction ⟨2, 1, 1, 3, 1, 5, 10⟩
        ⟨ContextTree.init 2, 0, 0, .percept_update⟩ 1).timeCycle
      = (⟨ContextTree.init 2, 0, 0, .percept_update⟩ : AgentState).timeCycle + 1
    ∧ (Agent.modelUpdateAction ⟨2, 1, 1, 3, 1, 5, 10⟩
        ⟨ContextTree.init 2, 0, 0, .percept_update⟩ 1).lastUpdate
      = UpdateTag.action_update :=
  modelUpdateAction_effects ⟨2, 1, 1, 3, 1, 5, 10⟩
    ⟨ContextTree.init 2, 0, 0, .percept_update⟩ 1 rfl

/-! ### C10: selectAction always assigns an in-range action -/

theorem selectActionLoop_from_some (cfg : AgentCfg) (node : SearchNode) :
    ∀ (l : List ℕ) (st : Option ℕ × WithBot ℝ) (ω : Oracle) (a0 : ℕ),
    st.1 = some a0 →
    ∃ a, (selectActionLoop cfg node l st ω).1.1 = some a ∧ (a = a0 ∨ a ∈ l) := by
  intro l
  induction l with
  | nil =>
    intro st ω a0 h
    exact ⟨a0, h, Or.inl rfl⟩
  | cons a rest ih =>
    intro st ω a0 h
    simp only [selectActionLoop]
    split
    · obtain ⟨a1, h1, h2⟩ := ih (some a, _) _ a rfl
      exact ⟨a1, h1, Or.inr (by cases h2 with
        | inl h2 => simp [h2]
        | inr h2 => simp [h2])⟩
    · obtain ⟨a1, h1, h2⟩ := ih st _ a0 h
      exact ⟨a1, h1, by cases h2 with
        | inl h2 => exact Or.inl h2
        | inr h2 => exact Or.inr (by simp [h2])⟩

/-- C10: `SearchNode::selectAction` always assigns `best_action`: the first
candidate has a finite priority, which beats the minus-infinity initial
best priority even after the tie-breaking noise is added (minus infinity
plus a finite noise stays minus infinity), so the returned action is never
the uninitialised value and lies between `0` and `maxAction`. -/
theorem selectAction_assigns (cfg : AgentCfg) (node : SearchNode) (ω : Oracle) :
    ∃ a, (SearchNode.selectAction cfg node ω).1 = some a ∧ a ≤ cfg.maxAction := by
  rw [SearchNode.selectAction]
  rw [List.range_succ_eq_map]
  simp only [selectActionLoop]
  rw [if_pos]
  · obtain ⟨a, h1, h2⟩ := selectActionLoop_from_some cfg node
      ((List.range cfg.maxAction).map Nat.succ)
      (some 0, ((ucbPriority cfg node (node.child 0) : ℝ) : WithBot ℝ))
      (ω.takeReal).2 0 rfl
    refine ⟨a, h1, ?_⟩
    cases h2 with
    | inl h2 => omega
    | inr h2 =>
      obtain ⟨k, hk, hks⟩ := List.mem_map.mp h2
      have := List.mem_range.mp hk
      omega
  · rw [WithBot.bot_add]
    exact WithBot.bot_lt_coe _

/-! ### C5: chance-node children are keyed by the observation -/

theorem SearchNode.children_addSample (n : SearchNode) (r : ℝ) :
    (n.addSample r).children = n.children := rfl

/-- C5 (amended): at a chance node, one step of `SearchNode::sample` creates
or descends into the child stored under the key
`chanceChildIndex o r = o` - the observation alone - so the reward
component of the generated percept plays no role in selecting the child. -/
theorem sample_chance_keyed_by_observation (cfg : AgentCfg) (fuel : ℕ)
    (n : SearchNode) (σ : AgentState) (ω : Oracle) (h : ℕ)
    (hn : n.type = .chance) (hh : h ≠ 0) :
    ∃ c, (SearchNode.sample cfg (fuel + 1) n σ ω h).2.1.children
      = assocSet n.children (Agent.genPerceptAndUpdate cfg σ ω).1.1 c := by
  simp only [SearchNode.sample]
  rw [if_neg hh, if_pos hn]
  exact ⟨_, rfl⟩

/-- Witness for C5 (amended) at a fresh chance node. -/
theorem sample_chance_keyed_by_observation_witness :
    ∃ c, (SearchNode.sample ⟨1, 1, 1, 1, 1, 1, 1⟩ 1 (SearchNode.mk .chance 0 0 [])
        ⟨ContextTree.init 5, 0, 0, .percept_update⟩ ⟨fun _ => 1, fun _ => 0, 0, 0⟩
        1).2.1.children
      = assocSet (SearchNode.mk Nodetype.chance 0 0 []).children
          (Agent.genPerceptAndUpdate ⟨1, 1, 1, 1, 1, 1, 1⟩
            ⟨ContextTree.init 5, 0, 0, .percept_update⟩
            ⟨fun _ => 1, fun _ => 0, 0, 0⟩).1.1 c :=
  sample_chance_keyed_by_observation ⟨1, 1, 1, 1, 1, 1, 1⟩ 0
    (SearchNode.mk .chance 0 0 []) ⟨ContextTree.init 5, 0, 0, .percept_update⟩
    ⟨fun _ => 1, fun _ => 0, 0, 0⟩ 1 rfl (by decide)

/-- C5 counterexample: a fresh chance node, a depth-5 agent model with empty
history (so each sampled bit compares `rand01()` against the uniform
prediction 0.5), and two oracles whose draws make `genPerceptAndUpdate`
return the percepts `(o, r) = (0, 0)` and `(o, r) = (0, 1)`: the same
observation with two different rewards.  In both runs the sampled child is
stored under the same key `0`, so sampling routes the two percepts to the
SAME child decision node, refuting the claim that distinct rewards reach
distinct children. -/
theorem sample_routes_same_child_cex :
    (Agent.genPerceptAndUpdate ⟨1, 1, 1, 1, 1, 1, 1⟩
        ⟨ContextTree.init 5, 0, 0, .percept_update⟩
        ⟨fun _ => 1, fun _ => 0, 0, 0⟩).1 = (0, 0)
    ∧ (Agent.genPerceptAndUpdate ⟨1, 1, 1, 1, 1, 1, 1⟩
        ⟨ContextTree.init 5, 0, 0, .percept_update⟩
        ⟨fun i => if i = 0 then (0 : ℝ) else 1, fun _ => 0, 0, 0⟩).1 = (0, 1)
    ∧ (SearchNode.sample ⟨1, 1, 1, 1, 1, 1, 1⟩ 1 (SearchNode.mk .chance 0 0 [])
        ⟨ContextTree.init 5, 0, 0, .percept_update⟩
        ⟨fun _ => 1, fun _ => 0, 0, 0⟩ 1).2.1.children.map Prod.fst = [0]
    ∧ (SearchNode.sample ⟨1, 1, 1, 1, 1, 1, 1⟩ 1 (SearchNode.mk .chance 0 0 [])
        ⟨ContextTree.init 5, 0, 0, .percept_update⟩
        ⟨fun i => if i = 0 then (0 : ℝ) else 1, fun _ => 0, 0, 0⟩ 1).2.1.children.map
          Prod.fst = [0] := by
  refine ⟨?_, ?_, ?_, ?_⟩ <;>
    norm_num [Agent.genPerceptAndUpdate, ContextTree.genRandomSymbolsAndUpdate,
      AgentCfg.perceptBits, Oracle.takeReal, ContextTree.predict, ContextTree.update,
      ContextTree.init, decodePercept, decode, SearchNode.sample, chanceChildIndex,
      SearchNode.child, SearchNode.children, SearchNode.type, assocFind, assocSet,
      SearchNode.addSample]

/-! ### C2: the model-revert protocol of `Agent::search` -/

theorem ContextTree.revert_history (t : ContextTree) :
    t.revert.history = t.history.tail := by
  rcases t with ⟨r, d, hist⟩
  cases hist with
  | nil => rfl
  | cons s rest =>
    simp only [ContextTree.revert]
    split <;> rfl

theorem ContextTree.revertN_history : ∀ (k : ℕ) (t : ContextTree),
    (t.revertN k).history = t.history.drop k := by
  intro k
  induction k with
  | zero => intro t; rfl
  | succ k ih =>
    intro t
    show (t.revert.revertN k).history = _
    rw [ih t.revert, ContextTree.revert_history, ← List.drop_one, List.drop_drop,
      Nat.add_comm]

theorem genRandomSymbolsAndUpdate_history : ∀ (bits : ℕ) (t : ContextTree) (ω : Oracle),
    ∃ l : List Bool, l.length = bits
      ∧ ((t.genRandomSymbolsAndUpdate ω bits).2.1).history = l ++ t.history := by
  intro bits
  induction bits with
  | zero => intro t ω; exact ⟨[], rfl, rfl⟩
  | succ b ih =>
    intro t ω
    simp only [ContextTree.genRandomSymbolsAndUpdate]
    obtain ⟨l, hl, hh⟩ := ih
      (t.update (if (ω.takeReal).1 < t.predict true then true else false)) (ω.takeReal).2
    refine ⟨l ++ [if (ω.takeReal).1 < t.predict true then true else false], by simp [hl], ?_⟩
    rw [hh, ContextTree.update_history]
    simp

theorem genPerceptAndUpdate_history (cfg : AgentCfg) (σ : AgentState) (ω : Oracle) :
    ∃ l : List Bool, l.length = cfg.perceptBits
      ∧ (Agent.genPerceptAndUpdate cfg σ ω).2.1.ct.history = l ++ σ.ct.history := by
  obtain ⟨l, hl, hh⟩ := genRandomSymbolsAndUpdate_history cfg.perceptBits σ.ct ω
  exact ⟨l, hl, hh⟩

theorem modelUpdateAction_history (cfg : AgentCfg) (σ : AgentState) (a : ℕ) :
    (Agent.modelUpdateAction cfg σ a).ct.history
      = (encodeAction cfg a).reverse ++ σ.ct.history :=
  ContextTree.updateHistoryList_history _ _

theorem SimReach.historySize_le {cfg : AgentCfg} {σ0 σ1 : AgentState}
    (h : SimReach cfg σ0 σ1) : σ0.ct.historySize ≤ σ1.ct.historySize := by
  induction h with
  | refl => exact le_rfl
  | act σ1 a hsim hlu ih =>
    have := modelUpdateAction_history cfg σ1 a
    simp only [ContextTree.historySize] at *
    rw [this]
    simp only [List.length_append]
    omega
  | per σ1 ω hsim hlu ih =>
    obtain ⟨l, hl, hh⟩ := genPerceptAndUpdate_history cfg σ1 ω
    simp only [ContextTree.historySize] at *
    rw [hh]
    simp only [List.length_append]
    omega

theorem SimReach.trans {cfg : AgentCfg} {σ0 σ1 σ2 : AgentState}
    (h1 : SimReach cfg σ0 σ1) (h2 : SimReach cfg σ1 σ2) : SimReach cfg σ0 σ2 := by
  induction h2 with
  | refl => exact h1
  | act σ3 a hsim hlu ih => exact SimReach.act _ _ a ih hlu
  | per σ3 ω hsim hlu ih => exact SimReach.per _ _ ω ih hlu

/-- The while loop of `Agent::modelRevert` strips the blocks a simulation
appended, landing exactly on the snapshot history size with the snapshot
tag: the loop only reads the history and the tag of the state it is
reverting, so it applies to any state that agrees with the simulated state
on those. -/
theorem modelRevertLoop_restores (cfg : AgentCfg)
    (haB : 1 ≤ cfg.actionBits) (hpB : 1 ≤ cfg.perceptBits)
    {σ0 σ1 : AgentState} (hsim : SimReach cfg σ0 σ1) :
    ∀ (σA : AgentState), σA.ct.history = σ1.ct.history →
    σA.lastUpdate = σ1.lastUpdate →
    ∀ fuel, σ1.ct.historySize ≤ σ0.ct.historySize + fuel →
    (Agent.modelRevertLoop cfg σA σ0.ct.historySize fuel).ct.historySize
        = σ0.ct.historySize
      ∧ (Agent.modelRevertLoop cfg σA σ0.ct.historySize fuel).lastUpdate
        = σ0.lastUpdate := by
  induction hsim with
  | refl =>
    intro σA hh hl fuel hfuel
    have hsz : σA.ct.historySize = σ0.ct.historySize := by
      simp only [ContextTree.historySize, hh]
    cases fuel with
    | zero => exact ⟨hsz, hl⟩
    | succ fuel =>
      simp only [Agent.modelRevertLoop]
      rw [if_neg (by omega)]
      exact ⟨hsz, hl⟩
  | act σmid a hsim hlu ih =>
    intro σA hh hl fuel hfuel
    have hh1 := modelUpdateAction_history cfg σmid a
    have hs1 : (Agent.modelUpdateAction cfg σmid a).ct.historySize
        = σmid.ct.historySize + cfg.actionBits := by
      simp only [ContextTree.historySize, hh1, List.length_append,
        List.length_reverse, encodeAction_length]
      omega
    have hmono := SimReach.historySize_le hsim
    cases fuel with
    | zero => omega
    | succ fuel =>
      simp only [Agent.modelRevertLoop]
      rw [if_pos (by
        simp only [ContextTree.historySize, hh] at *
        omega)]
      have hstep : Agent.modelRevertStep cfg σA
          = { σA with ct := σA.ct.revertHistory cfg.actionBits,
                      lastUpdate := .percept_update } := by
        rw [Agent.modelRevertStep, if_neg (by rw [hl]; simp [Agent.modelUpdateAction])]
      rw [hstep]
      refine ih _ ?_ ?_ fuel (by omega)
      · show (σA.ct.revertHistory cfg.actionBits).history = σmid.ct.history
        show σA.ct.history.drop cfg.actionBits = σmid.ct.history
        rw [hh, hh1]
        exact List.drop_left' (by simp [encodeAction_length])
      · exact hlu.symm ▸ rfl
  | per σmid ω hsim hlu ih =>
    intro σA hh hl fuel hfuel
    obtain ⟨l, hlen, hh1⟩ := genPerceptAndUpdate_history cfg σmid ω
    have hs1 : (Agent.genPerceptAndUpdate cfg σmid ω).2.1.ct.historySize
        = σmid.ct.historySize + cfg.perceptBits := by
      simp only [ContextTree.historySize, hh1, List.length_append, hlen]
      omega
    have hmono := SimReach.historySize_le hsim
    cases fuel with
    | zero => omega
    | succ fuel =>
      simp only [Agent.modelRevertLoop]
      rw [if_pos (by
        simp only [ContextTree.historySize, hh] at *
        omega)]
      have hstep : Agent.modelRevertStep cfg σA
          = { σA with ct := σA.ct.revertN cfg.perceptBits,
                      lastUpdate := .action_update } := by
        rw [Agent.modelRevertStep, if_pos (by rw [hl]; rfl)]
      rw [hstep]
      refine ih _ ?_ ?_ fuel (by omega)
      · show ((σA.ct.revertN cfg.perceptBits)).history = σmid.ct.history
        rw [ContextTree.revertN_history, hh, hh1]
        exact List.drop_left' hlen
      · exact hlu.symm ▸ rfl

/-- `Agent::modelRevert` restores the four snapshot fields after any
simulation: age, total reward and last-update are restored by direct
assignment, and the history size by the undo loop. -/
theorem modelRevert_restores (cfg : AgentCfg)
    (haB : 1 ≤ cfg.actionBits) (hpB : 1 ≤ cfg.perceptBits)
    {σ0 σ1 : AgentState} (hsim : SimReach cfg σ0 σ1) (mu : ModelUndo)
    (hmu : mu.historySize = σ0.ct.historySize) :
    (Agent.modelRevert cfg σ1 mu).ct.historySize = mu.historySize
      ∧ (Agent.modelRevert cfg σ1 mu).timeCycle = mu.age
      ∧ (Agent.modelRevert cfg σ1 mu).totalReward = mu.reward
      ∧ (Agent.modelRevert cfg σ1 mu).lastUpdate = mu.lastUpdate := by
  have hloop := modelRevertLoop_restores cfg haB hpB hsim σ1 rfl rfl
    σ1.ct.historySize (by omega)
  refine ⟨?_, rfl, rfl, rfl⟩
  show (Agent.modelRevertLoop cfg σ1 mu.historySize σ1.ct.historySize).ct.historySize
      = mu.historySize
  rw [hmu]
  exact hloop.1

/-- `Agent::playout` only performs legal simulation steps: starting from a
state whose last update is a percept, it alternates `modelUpdate(action)`
and `genPerceptAndUpdate`, ending on a percept again. -/
theorem playout_SimReach (cfg : AgentCfg) : ∀ (h : ℕ) (σ : AgentState) (ω : Oracle),
    σ.lastUpdate = .percept_update →
    SimReach cfg σ (Agent.playout cfg σ ω h).2.1
      ∧ (Agent.playout cfg σ ω h).2.1.lastUpdate = .percept_update := by
  intro h
  induction h with
  | zero => intro σ ω hlu; exact ⟨SimReach.refl σ, hlu⟩
  | succ h ihp =>
    intro σ ω hlu
    have h1 : SimReach cfg σ
        (Agent.modelUpdateAction cfg σ (Agent.genRandomAction cfg ω).1) :=
      SimReach.act σ σ _ (SimReach.refl σ) hlu
    have h2 : SimReach cfg σ (Agent.genPerceptAndUpdate cfg
        (Agent.modelUpdateAction cfg σ (Agent.genRandomAction cfg ω).1)
        (Agent.genRandomAction cfg ω).2).2.1 :=
      SimReach.per σ _ _ h1 rfl
    have h3 := ihp (Agent.genPerceptAndUpdate cfg
        (Agent.modelUpdateAction cfg σ (Agent.genRandomAction cfg ω).1)
        (Agent.genRandomAction cfg ω).2).2.1
      (Agent.genPerceptAndUpdate cfg
        (Agent.modelUpdateAction cfg σ (Agent.genRandomAction cfg ω).1)
        (Agent.genRandomAction cfg ω).2).2.2 rfl
    exact ⟨SimReach.trans h2 h3.1, h3.2⟩

theorem sample_type (cfg : AgentCfg) (fuel : ℕ) (n : SearchNode) (σ : AgentState)
    (ω : Oracle) (h : ℕ) :
    (SearchNode.sample cfg fuel n σ ω h).2.1.type = n.type := by
  cases fuel with
  | zero => rfl
  | succ fuel =>
    simp only [SearchNode.sample]
    split_ifs <;> rfl

theorem assocFind_mem : ∀ (l : List (ℕ × SearchNode)) (i : ℕ) (c : SearchNode),
    assocFind l i = some c → (i, c) ∈ l := by
  intro l
  induction l with
  | nil => intro i c h; cases h
  | cons p rest ih =>
    intro i c h
    obtain ⟨j, d⟩ := p
    simp only [assocFind] at h
    by_cases hj : j = i
    · rw [if_pos hj] at h
      injection h with h
      subst hj h
      exact List.mem_cons_self _ _
    · rw [if_neg hj] at h
      exact List.mem_cons_of_mem _ (ih i c h)

theorem assocSet_mem : ∀ (l : List (ℕ × SearchNode)) (i : ℕ) (c : SearchNode)
    (q : ℕ × SearchNode), q ∈ assocSet l i c → q ∈ l ∨ q = (i, c) := by
  intro l
  induction l with
  | nil =>
    intro i c q h
    simp only [assocSet, List.mem_singleton] at h
    exact Or.inr h
  | cons p rest ih =>
    intro i c q h
    obtain ⟨j, d⟩ := p
    simp only [assocSet] at h
    by_cases hj : j = i
    · rw [if_pos hj] at h
      rcases List.mem_cons.mp h with h | h
      · right; rw [h, hj]
      · left; exact List.mem_cons_of_mem _ h
    · rw [if_neg hj] at h
      rcases List.mem_cons.mp h with h | h
      · left; rw [h]; exact List.mem_cons_self _ _
      · rcases ih i c q h with h | h
        · left; exact List.mem_cons_of_mem _ h
        · right; exact h

theorem SearchNode.WellTyped.child_type {n : SearchNode} (h : n.WellTyped) {i : ℕ}
    {c : SearchNode} (hc : n.child i = some c) : c.type = n.type.flip := by
  cases h with
  | mk ty m v cs hty hwt => exact hty _ (assocFind_mem cs i c hc)

theorem SearchNode.WellTyped.child_wt {n : SearchNode} (h : n.WellTyped) {i : ℕ}
    {c : SearchNode} (hc : n.child i = some c) : c.WellTyped := by
  cases h with
  | mk ty m v cs hty hwt => exact hwt _ (assocFind_mem cs i c hc)

theorem SearchNode.WellTyped.addSample {n : SearchNode} (h : n.WellTyped) (r : ℝ) :
    (n.addSample r).WellTyped := by
  cases h with
  | mk ty m v cs hty hwt => exact SearchNode.WellTyped.mk ty _ _ cs hty hwt

theorem sample_succ_chance (cfg : AgentCfg) (fuel : ℕ) (m : ℝ) (v : ℤ)
    (cs : List (ℕ × SearchNode)) (σ : AgentState) (ω : Oracle) (h : ℕ) (hh : ¬ h = 0)
    (g : (ℕ × ℕ) × AgentState × Oracle) (hg : g = Agent.genPerceptAndUpdate cfg σ ω)
    (c : SearchNode)
    (hc : c = ((SearchNode.mk Nodetype.chance m v cs).child
        (chanceChildIndex g.1.1 g.1.2)).getD (SearchNode.mk .decision 0 0 []))
    (s : ℝ × SearchNode × AgentState × Oracle)
    (hs : s = SearchNode.sample cfg fuel c g.2.1 g.2.2 (h - 1)) :
    SearchNode.sample cfg (fuel + 1) (.mk .chance m v cs) σ ω h
      = ((g.1.2 : ℝ) + s.1,
         (SearchNode.mk Nodetype.chance m v
            (assocSet cs (chanceChildIndex g.1.1 g.1.2) s.2.1)).addSample
           ((g.1.2 : ℝ) + s.1),
         s.2.2.1, s.2.2.2) := by
  subst hs hc hg
  simp only [SearchNode.sample]
  rw [if_neg hh,
    if_pos (show (SearchNode.mk Nodetype.chance m v cs).type = Nodetype.chance from rfl)]
  rfl

theorem sample_succ_dec_unvisited (cfg : AgentCfg) (fuel : ℕ) (m : ℝ) (v : ℤ)
    (cs : List (ℕ × SearchNode)) (σ : AgentState) (ω : Oracle) (h : ℕ) (hh : ¬ h = 0)
    (hv : v = 0) :
    SearchNode.sample cfg (fuel + 1) (.mk .decision m v cs) σ ω h
      = ((Agent.playout cfg σ ω h).1,
         (SearchNode.mk Nodetype.decision m v cs).addSample (Agent.playout cfg σ ω h).1,
         (Agent.playout cfg σ ω h).2.1, (Agent.playout cfg σ ω h).2.2) := by
  simp only [SearchNode.sample]
  rw [if_neg hh,
    if_neg (fun hcon => Nodetype.noConfusion hcon),
    if_pos (show (SearchNode.mk Nodetype.decision m v cs).visits = 0 from hv)]

theorem sample_succ_dec_visited (cfg : AgentCfg) (fuel : ℕ) (m : ℝ) (v : ℤ)
    (cs : List (ℕ × SearchNode)) (σ : AgentState) (ω : Oracle) (h : ℕ) (hh : ¬ h = 0)
    (hv : ¬ v = 0)
    (sel : Option ℕ × Oracle)
    (hsel : sel = SearchNode.selectAction cfg (.mk .decision m v cs) ω)
    (a : ℕ) (ha : a = sel.1.getD 0)
    (σ1 : AgentState) (hσ1 : σ1 = Agent.modelUpdateAction cfg σ a)
    (c : SearchNode)
    (hc : c = ((SearchNode.mk Nodetype.decision m v cs).child a).getD
        (SearchNode.mk .chance 0 0 []))
    (s : ℝ × SearchNode × AgentState × Oracle)
    (hs : s = SearchNode.sample cfg fuel c σ1 sel.2 h) :
    SearchNode.sample cfg (fuel + 1) (.mk .decision m v cs) σ ω h
      = (s.1,
         (SearchNode.mk Nodetype.decision m v (assocSet cs a s.2.1)).addSample s.1,
         s.2.2.1, s.2.2.2) := by
  subst hs hc hσ1 ha hsel
  simp only [SearchNode.sample]
  rw [if_neg hh,
    if_neg (fun hcon => Nodetype.noConfusion hcon),
    if_neg (show ¬ (SearchNode.mk Nodetype.decision m v cs).visits = 0 from hv)]
  rfl

/-- `SearchNode::sample` changes the agent state only through legal
simulation steps, and keeps the search tree well typed. -/
theorem sample_SimReach (cfg : AgentCfg) : ∀ (fuel : ℕ) (n : SearchNode)
    (σ : AgentState) (ω : Oracle) (h : ℕ),
    n.WellTyped →
    (n.type = .decision → σ.lastUpdate = .percept_update) →
    (n.type = .chance → σ.lastUpdate = .action_update) →
    SimReach cfg σ (SearchNode.sample cfg fuel n σ ω h).2.2.1
      ∧ (SearchNode.sample cfg fuel n σ ω h).2.1.WellTyped := by
  intro fuel
  induction fuel with
  | zero =>
    intro n σ ω h hwt hdec hcha
    exact ⟨SimReach.refl σ, hwt⟩
  | succ fuel ih =>
    intro n σ ω h hwt hdec hcha
    rcases n with ⟨ty, m, v, cs⟩
    by_cases hh : h = 0
    · subst hh
      have key : SearchNode.sample cfg (fuel + 1) (.mk ty m v cs) σ ω 0
          = (0, .mk ty m v cs, σ, ω) := by
        simp only [SearchNode.sample]
        rw [if_pos trivial]
      rw [key]
      exact ⟨SimReach.refl σ, hwt⟩
    · cases ty with
      | chance =>
        have hlu := hcha rfl
        have key := sample_succ_chance cfg fuel m v cs σ ω h hh _ rfl _ rfl _ rfl
        rw [key]
        set g := Agent.genPerceptAndUpdate cfg σ ω with hg
        set idx := chanceChildIndex g.1.1 g.1.2 with hidx
        set c := ((SearchNode.mk Nodetype.chance m v cs).child idx).getD
          (SearchNode.mk Nodetype.decision 0 0 []) with hcdef
        set s := SearchNode.sample cfg fuel c g.2.1 g.2.2 (h - 1) with hsdef
        have hctype : c.type = Nodetype.decision := by
          rw [hcdef]
          cases hfind : (SearchNode.mk Nodetype.chance m v cs).child idx with
          | none => rfl
          | some c0 => exact hwt.child_type hfind
        have hcwt : c.WellTyped := by
          rw [hcdef]
          cases hfind : (SearchNode.mk Nodetype.chance m v cs).child idx with
          | none => exact SearchNode.WellTyped.mk _ _ _ [] (by simp) (by simp)
          | some c0 => exact hwt.child_wt hfind
        have hstep : SimReach cfg σ g.2.1 := SimReach.per σ σ ω (SimReach.refl σ) hlu
        obtain ⟨hsim2, hwt2⟩ := ih c g.2.1 g.2.2 (h - 1) hcwt
          (fun _ => rfl)
          (fun hc2 => by rw [hctype] at hc2; exact absurd hc2 (by decide))
        rw [← hsdef] at hsim2 hwt2
        have hstype : s.2.1.type = Nodetype.decision := by
          rw [hsdef, sample_type]
          exact hctype
        have hnodeWT : SearchNode.WellTyped
            (SearchNode.mk Nodetype.chance m v (assocSet cs idx s.2.1)) := by
          cases hwt with
          | mk _ _ _ _ hty hwts =>
            refine SearchNode.WellTyped.mk _ _ _ _ ?_ ?_
            · intro p hp
              rcases assocSet_mem cs idx s.2.1 p hp with hmem | heq
              · exact hty p hmem
              · rw [heq]; exact hstype
            · intro p hp
              rcases assocSet_mem cs idx s.2.1 p hp with hmem | heq
              · exact hwts p hmem
              · rw [heq]; exact hwt2
        exact ⟨SimReach.trans hstep hsim2, hnodeWT.addSample _⟩
      | decision =>
        have hlu := hdec rfl
        by_cases hv : v = 0
        · have key := sample_succ_dec_unvisited cfg fuel m v cs σ ω h hh hv
          rw [key]
          obtain ⟨hp1, hp2⟩ := playout_SimReach cfg h σ ω hlu
          exact ⟨hp1, hwt.addSample _⟩
        · have key := sample_succ_dec_visited cfg fuel m v cs σ ω h hh hv
            _ rfl _ rfl _ rfl _ rfl _ rfl
          rw [key]
          set sel := SearchNode.selectAction cfg (SearchNode.mk Nodetype.decision m v cs) ω
            with hseldef
          set a := sel.1.getD 0 with hadef
          set σ1 := Agent.modelUpdateAction cfg σ a with hσ1def
          set c := ((SearchNode.mk Nodetype.decision m v cs).child a).getD
            (SearchNode.mk Nodetype.chance 0 0 []) with hcdef
          set s := SearchNode.sample cfg fuel c σ1 sel.2 h with hsdef
          have hctype : c.type = Nodetype.chance := by
            rw [hcdef]
            cases hfind : (SearchNode.mk Nodetype.decision m v cs).child a with
            | none => rfl
            | some c0 => exact hwt.child_type hfind
          have hcwt : c.WellTyped := by
            rw [hcdef]
            cases hfind : (SearchNode.mk Nodetype.decision m v cs).child a with
            | none => exact SearchNode.WellTyped.mk _ _ _ [] (by simp) (by simp)
            | some c0 => exact hwt.child_wt hfind
          have hstep : SimReach cfg σ σ1 := SimReach.act σ σ a (SimReach.refl σ) hlu
          obtain ⟨hsim2, hwt2⟩ := ih c σ1 sel.2 h hcwt
            (fun hc2 => by rw [hctype] at hc2; exact absurd hc2 (by decide))
            (fun _ => rfl)
          rw [← hsdef] at hsim2 hwt2
          have hstype : s.2.1.type = Nodetype.chance := by
            rw [hsdef, sample_type]
            exact hctype
          have hnodeWT : SearchNode.WellTyped
              (SearchNode.mk Nodetype.decision m v (assocSet cs a s.2.1)) := by
            cases hwt with
            | mk _ _ _ _ hty hwts =>
              refine SearchNode.WellTyped.mk _ _ _ _ ?_ ?_
              · intro p hp
                rcases assocSet_mem cs a s.2.1 p hp with hmem | heq
                · exact hty p hmem
                · rw [heq]; exact hstype
              · intro p hp
                rcases assocSet_mem cs a s.2.1 p hp with hmem | heq
                · exact hwts p hmem
                · rw [heq]; exact hwt2
          exact ⟨SimReach.trans hstep hsim2, hnodeWT.addSample _⟩

/-- Invariant of the sampling loop of `Agent::search`: after every
iteration (sample then `modelRevert` to the snapshot of `σ0`) the four
snapshot fields again agree with `σ0`. -/
theorem searchLoop_restores (cfg : AgentCfg)
    (haB : 1 ≤ cfg.actionBits) (hpB : 1 ≤ cfg.perceptBits)
    (σ0 : AgentState) (hlu : σ0.lastUpdate = .percept_update) :
    ∀ (m : ℕ) (root : SearchNode) (σ : AgentState) (ω : Oracle),
    root.type = .decision → root.WellTyped →
    σ.timeCycle = σ0.timeCycle → σ.totalReward = σ0.totalReward →
    σ.ct.historySize = σ0.ct.historySize → σ.lastUpdate = σ0.lastUpdate →
    (Agent.searchLoop cfg (ModelUndo.ofAgent σ0) root σ ω m).2.1.timeCycle = σ0.timeCycle
      ∧ (Agent.searchLoop cfg (ModelUndo.ofAgent σ0) root σ ω m).2.1.totalReward
          = σ0.totalReward
      ∧ (Agent.searchLoop cfg (ModelUndo.ofAgent σ0) root σ ω m).2.1.ct.historySize
          = σ0.ct.historySize
      ∧ (Agent.searchLoop cfg (ModelUndo.ofAgent σ0) root σ ω m).2.1.lastUpdate
          = σ0.lastUpdate := by
  intro m
  induction m with
  | zero =>
    intro root σ ω hty hwt h1 h2 h3 h4
    exact ⟨h1, h2, h3, h4⟩
  | succ m ihm =>
    intro root σ ω hty hwt h1 h2 h3 h4
    have hlus : σ.lastUpdate = .percept_update := by rw [h4, hlu]
    obtain ⟨hsim, hwts⟩ := sample_SimReach cfg (2 * cfg.horizon + 1) root σ ω cfg.horizon
      hwt (fun _ => hlus)
      (fun hc => by rw [hty] at hc; exact absurd hc (by decide))
    have hstype : (SearchNode.sample cfg (2 * cfg.horizon + 1) root σ ω cfg.horizon).2.1.type
        = Nodetype.decision := by rw [sample_type, hty]
    have hrev := modelRevert_restores cfg haB hpB hsim (ModelUndo.ofAgent σ0) h3.symm
    have key : Agent.searchLoop cfg (ModelUndo.ofAgent σ0) root σ ω (m + 1)
        = Agent.searchLoop cfg (ModelUndo.ofAgent σ0)
            (SearchNode.sample cfg (2 * cfg.horizon + 1) root σ ω cfg.horizon).2.1
            (Agent.modelRevert cfg
              (SearchNode.sample cfg (2 * cfg.horizon + 1) root σ ω cfg.horizon).2.2.1
              (ModelUndo.ofAgent σ0))
            (SearchNode.sample cfg (2 * cfg.horizon + 1) root σ ω cfg.horizon).2.2.2 m := by
      simp only [Agent.searchLoop]
    rw [key]
    exact ihm _ _ _ hstype hwts hrev.2.1 hrev.2.2.1 hrev.1 hrev.2.2.2

/-- C2: for every call to `Agent::search` started on a state whose last
update was a percept (as in the main loop, where `search` always follows
`modelUpdate(observation, reward)`), when the call returns, the agent age
(`timeCycle`), the total reward, the history length and the last-update tag
all equal their values immediately before the call: each of the
`mc-simulations` samples is fully undone by `modelRevert` applied to the
`ModelUndo` snapshot taken at the start of the call. -/
theorem search_restores_agent (cfg : AgentCfg)
    (haB : 1 ≤ cfg.actionBits) (hpB : 1 ≤ cfg.perceptBits)
    (σ : AgentState) (ω : Oracle) (hlu : σ.lastUpdate = .percept_update) :
    (Agent.search cfg σ ω).2.1.timeCycle = σ.timeCycle
      ∧ (Agent.search cfg σ ω).2.1.totalReward = σ.totalReward
      ∧ (Agent.search cfg σ ω).2.1.ct.historySize = σ.ct.historySize
      ∧ (Agent.search cfg σ ω).2.1.lastUpdate = σ.lastUpdate := by
  have hwt : SearchNode.WellTyped (SearchNode.mk .decision 0 0 []) :=
    SearchNode.WellTyped.mk _ _ _ [] (by simp) (by simp)
  exact searchLoop_restores cfg haB hpB σ hlu cfg.mcSimulations
    (SearchNode.mk .decision 0 0 []) σ ω rfl hwt rfl rfl rfl rfl

theorem search_restores_agent_witness :
    1 ≤ (AgentCfg.mk 1 1 1 1 1 1 1).actionBits
      ∧ 1 ≤ (AgentCfg.mk 1 1 1 1 1 1 1).perceptBits
      ∧ (Agent.search (AgentCfg.mk 1 1 1 1 1 1 1)
          (AgentState.mk (ContextTree.init 3) 0 0 .percept_update)
          (Oracle.mk (fun _ => 1) (fun _ => 0) 0 0)).2.1.lastUpdate
        = UpdateTag.percept_update :=
  ⟨by decide, by decide,
    (search_restores_agent (AgentCfg.mk 1 1 1 1 1 1 1) (by decide) (by decide)
      (AgentState.mk (ContextTree.init 3) 0 0 .percept_update)
      (Oracle.mk (fun _ => 1) (fun _ => 0) 0 0) rfl).2.2.2⟩

end MCAIXI
